import Mathlib

/-!
Verification of the TaskWeaver task engine (task parser, task registry,
board registry, debounce logic) against its natural-language specification.
The definitions below are a shallow embedding of the TypeScript sources:
strings are lists of characters, the insertion-ordered JavaScript `Map` is
an association list, and JavaScript timers and the vault are made explicit
state. Every definition is translated from the source files; the only
exceptions are marked `Modelled from the spec:` in their doc comments.
-/

namespace TaskWeaver

/-- Strings are modelled as lists of unicode scalar values. -/
abbrev Str := List Char

/-- Convert a Lean string literal to the embedding's string type. -/
def str (s : String) : Str := s.data

/-- The JavaScript regular-expression class `\s` (whitespace). -/
def isWsChar (c : Char) : Bool :=
  c == ' ' || c == '\t' || c == '\n' || c == '\r' ||
  c == '\x0b' || c == '\x0c' || c == ' ' || c == ' ' ||
  (' ' ≤ c && c ≤ ' ') ||
  c == ' ' || c == ' ' || c == ' ' || c == ' ' ||
  c == '　' || c == '﻿'

/-- JavaScript `String.prototype.trim`: drop whitespace on both ends. -/
def trimStr (s : Str) : Str :=
  ((s.dropWhile isWsChar).reverse.dropWhile isWsChar).reverse

/-- JavaScript `String.prototype.toLowerCase`, restricted to ASCII letters
(the only characters the tests and duplicate detection rely on). -/
def toLowerStr (s : Str) : Str := s.map Char.toLower

/-- JavaScript `String.prototype.includes`: contiguous substring test. -/
def containsSub (s pat : Str) : Bool :=
  s.tails.any (fun t => pat.isPrefixOf t)

/-- JavaScript `String.prototype.split('\n')`. -/
def splitOnNl : Str → List Str
  | [] => [[]]
  | c :: r =>
    let rest := splitOnNl r
    if c == '\n' then [] :: rest
    else
      match rest with
      | h :: t => (c :: h) :: t
      | [] => [[c]]

/-- Decimal digit characters. -/
def digitChar : Nat → Char
  | 0 => '0' | 1 => '1' | 2 => '2' | 3 => '3' | 4 => '4'
  | 5 => '5' | 6 => '6' | 7 => '7' | 8 => '8' | 9 => '9'
  | _ => '*'

/-- Decimal rendering of a natural number (JavaScript template literal
interpolation of a non-negative integer). Structural recursion on a fuel
argument keeps the definition kernel-reducible; `n < fuel` always holds
at the call sites. -/
def natToDecimalGo : Nat → Nat → Str → Str
  | 0, _, acc => acc
  | fuel + 1, n, acc =>
    if n < 10 then digitChar n :: acc
    else natToDecimalGo fuel (n / 10) (digitChar (n % 10) :: acc)

def natToDecimal (n : Nat) : Str := natToDecimalGo (n + 1) n []

/-- `TodoEngine.generateId` (src/src/engines/BoardEngine.ts:644-647):
the id is the template literal `filePath:lineNumber`; the text argument
is deliberately unused. -/
def generateId (filePath : Str) (lineNumber : Nat) (_text : Str) : Str :=
  filePath ++ ':' :: natToDecimal lineNumber

/-- The id a task of file `p` at line `n` receives. -/
def idFor (p : Str) (n : Nat) : Str := generateId p n []

/-- ASCII decimal digit test (regular-expression class `\d`). -/
def isDigitChar (c : Char) : Bool := '0' ≤ c && c ≤ '9'

/-- Word characters, hyphen or slash: the tag-body class `[\w\-\/]`. -/
def isTagChar (c : Char) : Bool :=
  c.isAlpha || isDigitChar c || c == '_' || c == '-' || c == '/'

/-- Recognise a `\d{4}-\d{2}-\d{2}` prefix and return those ten characters. -/
def parseDateAt : Str → Option Str
  | a :: b :: c :: d :: '-' :: e :: f :: '-' :: g :: h :: _ =>
    if isDigitChar a && isDigitChar b && isDigitChar c && isDigitChar d &&
       isDigitChar e && isDigitChar f && isDigitChar g && isDigitChar h then
      some [a, b, c, d, '-', e, f, '-', g, h]
    else none
  | _ => none

/-- One alternation step of the due-date regular expression
`(?:📅|📆|due::?)(\d{4}-\d{2}-\d{2})` at a fixed start position. -/
def tryDueMarker (s : Str) : Option Str :=
  match s with
  | '📅' :: r => parseDateAt r
  | '📆' :: r => parseDateAt r
  | 'd' :: 'u' :: 'e' :: ':' :: ':' :: r =>
    match parseDateAt r with
    | some d => some d
    | none => parseDateAt (':' :: r)
  | 'd' :: 'u' :: 'e' :: ':' :: r => parseDateAt r
  | _ => none

/-- First match of the due-date pattern anywhere in the text
(src/src/engines/BoardEngine.ts:606). -/
def extractDueDate : Str → Option Str
  | [] => none
  | c :: r =>
    match tryDueMarker (c :: r) with
    | some d => some d
    | none => extractDueDate r

/-- The length of `dropWhile` never exceeds the input length. -/
theorem dropWhileLenLe (p : Char → Bool) : (l : Str) → (l.dropWhile p).length ≤ l.length
  | [] => Nat.le_refl _
  | c :: r => by
    simp only [List.dropWhile]
    cases p c with
    | true => exact Nat.le_succ_of_le (dropWhileLenLe p r)
    | false => exact Nat.le_refl _

/-- All matches of the global regular expression `#[\w\-\/]+`
(src/src/engines/BoardEngine.ts:610), matches including the `#`.
Structural recursion on a fuel argument; every step consumes at least one
character, so `s.length` fuel is always enough. -/
def extractTagsGo : Nat → Str → List Str
  | 0, _ => []
  | fuel + 1, s =>
    match s with
    | [] => []
    | '#' :: r =>
      let run := r.takeWhile isTagChar
      if run.isEmpty then extractTagsGo fuel r
      else ('#' :: run) :: extractTagsGo fuel (r.dropWhile isTagChar)
    | _ :: r => extractTagsGo fuel r

def extractTags (s : Str) : List Str := extractTagsGo s.length s

/-- Characters matched by the JavaScript regex `.` (without the `s`
flag): any character except the line terminators LF, CR, LS, PS. -/
def isDotChar (c : Char) : Bool :=
  !(c == '\n' || c == '\r' || c == ' ' || c == ' ')

/-- The `\s+(.+)$` tail of the task-line regular expression, after the
checkbox, with full backtracking semantics. `\s+` consumes the maximal
whitespace run first and gives characters back one at a time; `(.+)` then
needs a nonempty run of dot characters reaching the end of the line.
Since every given-back character extends the candidate text to the left,
the first (longest-`\s+`) split that leaves a nonempty all-dot suffix
wins: either the remainder after the whitespace run, when it is nonempty
and free of line terminators, or — when the rest is all whitespace of
length at least two — the final whitespace character, when it is not
itself a line terminator. -/
def parseAfterBox (ind : Nat) (flag : Bool) (rest : Str) : Option (Nat × Bool × Str) :=
  if (rest.takeWhile isWsChar).isEmpty then none
  else if (rest.dropWhile isWsChar).isEmpty then
    if 2 ≤ (rest.takeWhile isWsChar).length then
      if isDotChar ((rest.takeWhile isWsChar).getLastD ' ') then
        some (ind, flag, [(rest.takeWhile isWsChar).getLastD ' '])
      else none
    else none
  else if (rest.dropWhile isWsChar).all isDotChar then
    some (ind, flag, rest.dropWhile isWsChar)
  else none

/-- The `\s+\[([ xX])\]` middle of the task-line regular expression,
after the list marker. -/
def parseAfterMarker (ind : Nat) (r2 : Str) : Option (Nat × Bool × Str) :=
  if (r2.takeWhile isWsChar).isEmpty then none
  else
    match r2.dropWhile isWsChar with
    | '[' :: b :: ']' :: rest =>
      if b == ' ' || b == 'x' || b == 'X' then
        parseAfterBox ind (b == 'x' || b == 'X') rest
      else none
    | _ => none

/-- The task-line regular expression
`^(\s*)[-*]\s+\[([ xX])\]\s+(.+)$` (src/src/engines/BoardEngine.ts:574),
returning (indent width, completed flag, captured text of group 3). -/
def parseTodoLine (line : Str) : Option (Nat × Bool × Str) :=
  match line.dropWhile isWsChar with
  | m :: r2 =>
    if m == '-' || m == '*' then
      parseAfterMarker (line.takeWhile isWsChar).length r2
    else none
  | [] => none

/-! ## Task registry data model (TodoEngine, src/src/engines/BoardEngine.ts:425-886) -/

/-- The `TodoItem` interface. -/
structure TodoItem where
  id : Str
  text : Str
  filePath : Str
  lineNumber : Nat
  completed : Bool
  priority : Nat
  rawLine : Str
  pinned : Bool
  indentLevel : Nat
  parentId : Option Str
  dueDate : Option Str
  tags : List Str
deriving DecidableEq

/-- The `TodoEngineSettings` interface. -/
structure TodoEngineSettings where
  priorityOrder : List Str
  hideCompleted : Bool
  excludeFolders : List Str
  includeFolders : List Str
  tagFilters : List Str
  pinnedIds : List Str
  priorities : List (Str × Nat)
  archivedIds : List Str
deriving DecidableEq

/-- The mutable state of a `TodoEngine`: the insertion-ordered entity map
`todos : Map<string, TodoItem>` and the settings blob. -/
structure TodoEngineState where
  todos : List (Str × TodoItem)
  settings : TodoEngineSettings
deriving DecidableEq

/-- JavaScript `Map.prototype.set`: replace in place if the key exists,
otherwise append at the end (insertion order preserved). -/
def alistSet (m : List (Str × TodoItem)) (k : Str) (v : TodoItem) : List (Str × TodoItem) :=
  match m with
  | [] => [(k, v)]
  | e :: r => if e.1 == k then (k, v) :: r else e :: alistSet r k v

/-- JavaScript `Map.prototype.get` (and `Object` indexing on records). -/
def alistLookup (m : List (Str × TodoItem)) (k : Str) : Option TodoItem :=
  match m.find? (fun e => e.1 == k) with
  | some e => some e.2
  | none => none

/-- `Array.from(map.values())`: the entities in insertion order. -/
def mapValues (m : List (Str × TodoItem)) : List TodoItem := m.map (fun e => e.2)

/-- `Number.MAX_SAFE_INTEGER`. -/
def MAX_SAFE_INTEGER : Nat := 2 ^ 53 - 1

/-- `TodoEngine.getPriority` (src/src/engines/BoardEngine.ts:659-662):
index in the global priority order, or the maximal sentinel. -/
def getPriority (settings : TodoEngineSettings) (id : Str) : Nat :=
  match settings.priorityOrder.findIdx? (fun x => x == id) with
  | some i => i
  | none => MAX_SAFE_INTEGER

/-- `TodoEngine.isPinned` (src/src/engines/BoardEngine.ts:757-759). -/
def isPinned (settings : TodoEngineSettings) (todoId : Str) : Bool :=
  settings.pinnedIds.contains todoId

/-- Pop every open ancestor whose indent is greater than or equal to the
current indent (the `while` loop of src/src/engines/BoardEngine.ts:592-599).
The head of the list is the top of the stack. -/
def popStack (stack : List (Str × Nat)) (indent : Nat) : List (Str × Nat) :=
  match stack with
  | [] => []
  | e :: r => if indent ≤ e.2 then popStack r indent else e :: r

/-- The line loop of `TodoEngine.scanFile`
(src/src/engines/BoardEngine.ts:579-633): parse each line, resolve the
parent via the stack, build the `TodoItem` and insert it into the map. -/
def scanFileGo (settings : TodoEngineSettings) (path : Str) :
    List Str → Nat → List (Str × Nat) → List (Str × TodoItem) → List (Str × TodoItem)
  | [], _, _, todos => todos
  | line :: rest, i, stack, todos =>
    match parseTodoLine line with
    | none => scanFileGo settings path rest (i + 1) stack todos
    | some (indent, completed, rawText) =>
      let text := trimStr rawText
      let id := generateId path (i + 1) text
      let stack1 := popStack stack indent
      let parentId := match stack1 with
        | [] => none
        | e :: _ => some e.1
      let todo : TodoItem := {
        id := id
        text := text
        filePath := path
        lineNumber := i + 1
        completed := completed
        priority := getPriority settings id
        rawLine := line
        pinned := isPinned settings id
        indentLevel := indent / 2
        parentId := parentId
        dueDate := extractDueDate text
        tags := extractTags text }
      scanFileGo settings path rest (i + 1) ((id, indent) :: stack1) (alistSet todos id todo)

/-- `TodoEngine.removeTodosFromFile` (src/src/engines/BoardEngine.ts:636-642). -/
def removeTodosFromFile (st : TodoEngineState) (path : Str) : TodoEngineState :=
  { st with todos := st.todos.filter (fun e => !(e.2.filePath == path)) }

/-- `TodoEngine.scanFile` (src/src/engines/BoardEngine.ts:565-634): remove
the document's previous entities, then re-parse the given content. -/
def scanFile (st : TodoEngineState) (path : Str) (content : Str) : TodoEngineState :=
  let st1 := removeTodosFromFile st path
  { st1 with todos := scanFileGo st.settings path (splitOnNl content) 0 [] st1.todos }

/-- The Task Parser of spec section 4.1, as exercised by `scanFile` on an
empty registry: the ordered task records a document's content produces. -/
def parseTasks (settings : TodoEngineSettings) (path : Str) (content : Str) : List TodoItem :=
  mapValues (scanFileGo settings path (splitOnNl content) 0 [] [])

/-- Stable insertion into a list sorted by the boolean total preorder `le`:
the inserted element goes before the first element it is `le`-below-or-equal
to. Used to model `Array.prototype.sort`, which is stable. -/
def insertLE (le : TodoItem → TodoItem → Bool) (x : TodoItem) : List TodoItem → List TodoItem
  | [] => [x]
  | y :: l => if le x y then x :: y :: l else y :: insertLE le x l

/-- Stable sort by the boolean total preorder `le`; for a consistent
comparator this agrees with JavaScript `Array.prototype.sort`. -/
def isortLE (le : TodoItem → TodoItem → Bool) : List TodoItem → List TodoItem
  | [] => []
  | x :: l => insertLE le x (isortLE le l)

/-- The comparator of `TodoEngine.getTodos`
(src/src/engines/BoardEngine.ts:682-686) as a total preorder: pinned
first, then ascending priority. -/
def todoLE (a b : TodoItem) : Bool :=
  if a.pinned && !b.pinned then true
  else if !a.pinned && b.pinned then false
  else a.priority ≤ b.priority

/-- `TodoEngine.getTodos` (src/src/engines/BoardEngine.ts:666-687). -/
def getTodos (st : TodoEngineState) (respectFilters : Bool := true) : List TodoItem :=
  let todos := mapValues st.todos
  let todos := if respectFilters && st.settings.hideCompleted then
    todos.filter (fun t => !t.completed) else todos
  let tagFilters := st.settings.tagFilters
  let todos := if respectFilters && !tagFilters.isEmpty then
    todos.filter (fun t => tagFilters.any (fun tag => containsSub t.text tag)) else todos
  isortLE todoLE todos

/-- `TodoEngine.getSubTasks` (src/src/engines/BoardEngine.ts:694-698). -/
def getSubTasks (st : TodoEngineState) (todoId : Str) : List TodoItem :=
  isortLE (fun a b => a.lineNumber ≤ b.lineNumber)
    ((mapValues st.todos).filter (fun t => t.parentId == some todoId))

/-- `TodoEngine.getSubTaskProgress` (src/src/engines/BoardEngine.ts:708-714):
completed and total counts over the sub-tasks. -/
def getSubTaskProgress (st : TodoEngineState) (todoId : Str) : Nat × Nat :=
  let subTasks := getSubTasks st todoId
  ((subTasks.filter (fun t => t.completed)).length, subTasks.length)

/-- `todo.text.toLowerCase().trim()`, the grouping key of `findDuplicates`. -/
def normalizeText (t : Str) : Str := trimStr (toLowerStr t)

/-- Append a todo to its text group, creating the group at the end of the
map if the key is new (`textMap` handling in `findDuplicates`,
src/src/engines/BoardEngine.ts:719-725). -/
def groupInsert (m : List (Str × List TodoItem)) (k : Str) (t : TodoItem) :
    List (Str × List TodoItem) :=
  match m with
  | [] => [(k, [t])]
  | e :: r => if e.1 == k then (e.1, e.2 ++ [t]) :: r else e :: groupInsert r k t

/-- The insertion-ordered `textMap` of `findDuplicates`. -/
def buildTextMap (todos : List (Str × TodoItem)) : List (Str × List TodoItem) :=
  todos.foldl (fun m e => groupInsert m (normalizeText e.2.text) e.2) []

/-- `TodoEngine.findDuplicates` (src/src/engines/BoardEngine.ts:716-736):
group all entities by normalized text, keep groups with at least two
members. -/
def findDuplicates (st : TodoEngineState) : List (Str × List TodoItem) :=
  (buildTextMap st.todos).filter (fun e => 1 < e.2.length)

/-- `TodoEngine.updatePriorities` (src/src/engines/BoardEngine.ts:749-755):
replace the order list wholesale and recompute every entity's priority. -/
def updatePriorities (st : TodoEngineState) (orderedIds : List Str) : TodoEngineState :=
  let settings := { st.settings with priorityOrder := orderedIds }
  { todos := st.todos.map (fun e => (e.1, { e.2 with priority := getPriority settings e.1 }))
    settings := settings }

/-- An all-empty settings blob (the spec's defaults for missing fields). -/
def emptySettings : TodoEngineSettings :=
  { priorityOrder := []
    hideCompleted := false
    excludeFolders := []
    includeFolders := []
    tagFilters := []
    pinnedIds := []
    priorities := []
    archivedIds := [] }

/-- A registry with no entities and default settings. -/
def emptyEngineState : TodoEngineState :=
  { todos := [], settings := emptySettings }

/-! ## Document store (abstract vault) and write-back operations -/

/-- The abstract document store: path to full text content. -/
structure Vault where
  files : List (Str × Str)
deriving DecidableEq

/-- `vault.getAbstractFileByPath` followed by `vault.read`. -/
def vaultRead (v : Vault) (path : Str) : Option Str :=
  match v.files.find? (fun e => e.1 == path) with
  | some e => some e.2
  | none => none

/-- `vault.modify`: overwrite a document's content. -/
def vaultWrite (v : Vault) (path : Str) (content : Str) : Vault :=
  { files := v.files.map (fun e => if e.1 == path then (e.1, content) else e) }

/-- JavaScript array indexing `l[i]` for a possibly negative index. -/
def jsIndex (l : List Str) (i : Int) : Option Str :=
  if i < 0 then none else l.get? i.toNat

/-- `line.replace(/\[x\]/i, '[ ]')`: uncheck the first checked checkbox. -/
def replaceXOff : Str → Str
  | '[' :: 'x' :: ']' :: r => '[' :: ' ' :: ']' :: r
  | '[' :: 'X' :: ']' :: r => '[' :: ' ' :: ']' :: r
  | c :: r => c :: replaceXOff r
  | [] => []

/-- `line.replace(/\[ \]/, '[x]')`: check the first unchecked checkbox. -/
def replaceSpaceOn : Str → Str
  | '[' :: ' ' :: ']' :: r => '[' :: 'x' :: ']' :: r
  | c :: r => c :: replaceSpaceOn r
  | [] => []

/-- `lines.join('\n')`. -/
def joinNl (lines : List Str) : Str := List.intercalate ['\n'] lines

/-- `TodoEngine.toggleTodo` (src/src/engines/BoardEngine.ts:845-866).
Returns the reported success flag, the resulting vault and the resulting
registry state; the source never touches the entity map, so the state is
returned unchanged on every path. Totality of this definition reflects
that the source returns `false` instead of throwing. -/
def toggleTodo (st : TodoEngineState) (v : Vault) (todoId : Str) :
    Bool × Vault × TodoEngineState :=
  match alistLookup st.todos todoId with
  | none => (false, v, st)
  | some todo =>
    match vaultRead v todo.filePath with
    | none => (false, v, st)
    | some content =>
      let lines := splitOnNl content
      match jsIndex lines ((todo.lineNumber : Int) - 1) with
      | none => (false, v, st)
      | some line =>
        if line.isEmpty then (false, v, st)
        else
          let newLine := if todo.completed then replaceXOff line else replaceSpaceOn line
          let newLines := lines.set (todo.lineNumber - 1) newLine
          (true, vaultWrite v todo.filePath (joinNl newLines), st)

/-! ## Debounced update pipeline (src/src/engines/BoardEngine.ts:512-538) -/

/-- The debounce-relevant part of the engine: the pending path set (a
JavaScript `Set`, insertion-ordered and duplicate-free) and whether a
timer is outstanding. -/
structure DebounceState where
  pendingFiles : List Str
  timerActive : Bool
  engine : TodoEngineState
deriving DecidableEq

/-- `Set.prototype.add`. -/
def setAdd (s : List Str) (x : Str) : List Str :=
  if s.contains x then s else s ++ [x]

/-- `TodoEngine.queueFileUpdate` followed by `scheduleDebouncedUpdate`:
enqueue the path and (re)start the debounce timer. -/
def queueFileUpdate (d : DebounceState) (path : Str) : DebounceState :=
  { d with pendingFiles := setAdd d.pendingFiles path, timerActive := true }

/-- `TodoEngine.processPendingUpdates`, run when the timer fires
uninterrupted: drain the pending set, rescan each drained path from the
vault's current content, and notify once if anything was drained.
Returns the new state, the number of notifications emitted and the list
of paths rescanned (in drain order). -/
def processPendingUpdates (d : DebounceState) (v : Vault) :
    DebounceState × Nat × List Str :=
  let filesToProcess := d.pendingFiles
  let engine := filesToProcess.foldl (fun e p =>
    match vaultRead v p with
    | some content => scanFile e p content
    | none => e) d.engine
  ({ pendingFiles := [], timerActive := false, engine := engine },
   if 0 < filesToProcess.length then 1 else 0,
   filesToProcess)

/-- Apply `f` iterated `n` times. -/
def applyN (f : DebounceState → DebounceState) : Nat → DebounceState → DebounceState
  | 0, d => d
  | n + 1, d => applyN f n (f d)

/-! ## Board registry (BoardEngine, src/src/engines/BoardEngine.ts:1-424) -/

inductive SortCriteria | priority | date | name | manual
deriving DecidableEq

inductive SortOrder | asc | desc
deriving DecidableEq

structure ColumnSortConfig where
  criteria : SortCriteria
  order : SortOrder
deriving DecidableEq

/-- The `ColumnFilter` interface. -/
structure ColumnFilter where
  showCompleted : Bool
  showIncomplete : Bool
  priorities : List Nat
  tags : List Str
deriving DecidableEq

/-- The `Column` interface. -/
structure Column where
  id : Str
  name : Str
  minimized : Option Bool := none
  workLimit : Option Nat := none
  sortConfig : Option ColumnSortConfig := none
  filterConfig : Option ColumnFilter := none
deriving DecidableEq

/-- The `Board` interface. -/
structure Board where
  id : Str
  name : Str
  columns : List Column
  pinnedIds : List Str
  todoAssignments : List (Str × Str)
  todoPriorities : List (Str × Nat)
  archivedTodoIds : List Str
  hideEmptyColumns : Option Bool := none
deriving DecidableEq

structure BoardSettings where
  boards : List Board
  activeBoardId : Option Str
deriving DecidableEq

/-- `BoardEngine.getBoard` (src/src/engines/BoardEngine.ts:102-104). -/
def getBoard (s : BoardSettings) (boardId : Str) : Option Board :=
  s.boards.find? (fun b => b.id == boardId)

/-- Record lookup `board.todoAssignments[todoId]` / `board.todoPriorities[todoId]`. -/
def recLookup (m : List (Str × Str)) (k : Str) : Option Str :=
  match m.find? (fun e => e.1 == k) with
  | some e => some e.2
  | none => none

def recLookupNat (m : List (Str × Nat)) (k : Str) : Option Nat :=
  match m.find? (fun e => e.1 == k) with
  | some e => some e.2
  | none => none

/-- Update the first board with the given id, leaving the rest untouched. -/
def updateBoardGo (f : Board → Board) (bid : Str) : List Board → List Board
  | [] => []
  | b :: r => if b.id == bid then f b :: r else b :: updateBoardGo f bid r

/-- In-place mutation through the reference returned by `getBoard`: the
first board with the given id is updated, every other board is untouched. -/
def updateBoard (s : BoardSettings) (boardId : Str) (f : Board → Board) : BoardSettings :=
  { s with boards := updateBoardGo f boardId s.boards }

/-- `BoardEngine.toggleBoardPin` (src/src/engines/BoardEngine.ts:258-269):
`indexOf` then `push` or `splice(index, 1)` on the board's pinned list. -/
def toggleBoardPin (s : BoardSettings) (boardId todoId : Str) : BoardSettings :=
  match getBoard s boardId with
  | none => s
  | some _ => updateBoard s boardId (fun b =>
      { b with pinnedIds :=
          if b.pinnedIds.contains todoId then b.pinnedIds.erase todoId
          else b.pinnedIds ++ [todoId] })

/-- `BoardEngine.isBoardPinned` (src/src/engines/BoardEngine.ts:271-275). -/
def isBoardPinned (s : BoardSettings) (boardId todoId : Str) : Bool :=
  match getBoard s boardId with
  | none => false
  | some b => b.pinnedIds.contains todoId

/-! ## Date utilities (src/utils/DateUtils, src/unnamed/part_003:54-109)

The JavaScript code compares `Date` values truncated to local midnight and
divides the millisecond difference by a whole day, which amounts to
subtracting calendar day numbers. Dates are therefore embedded as civil
day numbers (days since 1970-01-01); `today` becomes an explicit day
number parameter in place of `new Date()`. An invalid date string gives
`NaN` in JavaScript, making every comparison false; this is modelled by
`Option` with `none` failing every comparison. -/

def isLeapYear (y : Int) : Bool :=
  (y.emod 4 == 0 && y.emod 100 != 0) || y.emod 400 == 0

def daysInMonth (y m : Int) : Int :=
  if m == 2 then (if isLeapYear y then 29 else 28)
  else if m == 4 || m == 6 || m == 9 || m == 11 then 30
  else 31

/-- Civil day number of a calendar date (days since 1970-01-01). -/
def daysFromCivil (y m d : Int) : Int :=
  let y1 := if m ≤ 2 then y - 1 else y
  let era := y1.ediv 400
  let yoe := y1 - era * 400
  let mp := (m + 9).emod 12
  let doy := (153 * mp + 2).ediv 5 + d - 1
  let doe := yoe * 365 + yoe.ediv 4 - yoe.ediv 100 + doy
  era * 146097 + doe - 719468

def digitVal (c : Char) : Nat := c.toNat - 48

/-- Parse and validate a `YYYY-MM-DD` date string and return its civil
day number; `none` models the JavaScript invalid date (`NaN`). -/
def dateToDayNumber (s : Str) : Option Int :=
  match s with
  | [a, b, c, d, '-', e, f, '-', g, h] =>
    if isDigitChar a && isDigitChar b && isDigitChar c && isDigitChar d &&
       isDigitChar e && isDigitChar f && isDigitChar g && isDigitChar h then
      let y : Int := (1000 * digitVal a + 100 * digitVal b + 10 * digitVal c + digitVal d : Nat)
      let m : Int := (10 * digitVal e + digitVal f : Nat)
      let dd : Int := (10 * digitVal g + digitVal h : Nat)
      if 1 ≤ m && m ≤ 12 && 1 ≤ dd && dd ≤ daysInMonth y m then
        some (daysFromCivil y m dd)
      else none
    else none
  | _ => none

/-- `getDaysFromToday` (src/unnamed/part_003:61-67), with `new Date()`
replaced by the explicit `today` day number. -/
def getDaysFromToday (today : Int) (dateStr : Str) : Option Int :=
  (dateToDayNumber dateStr).map (fun d => d - today)

/-- `isOverdue` (src/unnamed/part_003:72-74). -/
def isOverdue (today : Int) (dateStr : Str) : Bool :=
  match getDaysFromToday today dateStr with
  | some n => decide (n < 0)
  | none => false

/-- `isInDateRange` (src/unnamed/part_003:79-82). -/
def isInDateRange (today : Int) (dateStr : Str) (fromDays toDays : Int) : Bool :=
  match getDaysFromToday today dateStr with
  | some n => decide (fromDays ≤ n) && decide (n ≤ toDays)
  | none => false

/-! ## Column-type classification (spec section 4.3)

The column-type-aware `BoardEngine` revision is referenced by the sources
under src (`ColumnType` is imported by src/src/utils/ColumnTypeUtils.ts and
by the board view and modal in src/unnamed/part_005 and part_006), but the
engine file itself is not among them; the definitions below reconstruct
its membership function from the spec. -/

/-- The `ColumnType` union (declared by the missing engine revision,
labels fixed by src/src/utils/ColumnTypeUtils.ts). -/
inductive ColumnType
  | manual | completed | undated | overdue | dated | namedTag
deriving DecidableEq

/-- The `ColumnTypeConfig` interface (field names fixed by the column
type modal, src/unnamed/part_006:84-113). -/
structure ColumnTypeConfig where
  dateFrom : Option Int := none
  dateTo : Option Int := none
  tag : Option Str := none
deriving DecidableEq

/-- A column of the column-type-aware engine revision. -/
structure TypedColumn where
  id : Str
  name : Str
  type : ColumnType
  typeConfig : Option ColumnTypeConfig := none
  filterConfig : Option ColumnFilter := none
deriving DecidableEq

/-- A board of the column-type-aware engine revision. -/
structure TypedBoard where
  id : Str
  name : Str
  columns : List TypedColumn
  pinnedIds : List Str
  todoAssignments : List (Str × Str)
  todoPriorities : List (Str × Nat)
  archivedTodoIds : List Str
deriving DecidableEq

/-- Modelled from the spec: the membership function selected by the
column's declared `type` (spec section 4.3 step 3). `manual` membership is
exactly the assignment map with the board's first column as default (as in
src/src/engines/BoardEngine.ts:224-225); every other type is computed from
the task's own attributes through the DateUtils predicates and ignores the
assignment map. The `dated` bounds default to the modal's placeholder
values 0 and 7 (src/unnamed/part_006:84-97); the `namedTag` tag defaults
to the empty string. -/
def columnMembership (today : Int) (board : TypedBoard) (col : TypedColumn)
    (todo : TodoItem) : Bool :=
  match col.type with
  | ColumnType.manual =>
    match recLookup board.todoAssignments todo.id with
    | some c => c == col.id
    | none =>
      match board.columns with
      | [] => false
      | c0 :: _ => c0.id == col.id
  | ColumnType.completed => todo.completed
  | ColumnType.undated => todo.dueDate.isNone
  | ColumnType.overdue =>
    match todo.dueDate with
    | some d => isOverdue today d
    | none => false
  | ColumnType.dated =>
    match todo.dueDate with
    | some d =>
      let cfg := col.typeConfig.getD {}
      isInDateRange today d (cfg.dateFrom.getD 0) (cfg.dateTo.getD 7)
    | none => false
  | ColumnType.namedTag =>
    let tag := (col.typeConfig.getD {}).tag.getD []
    todo.tags.contains tag || containsSub todo.text tag

/-- The column-filter conjunct of `getTodosForColumn`
(src/src/engines/BoardEngine.ts:228-244). -/
def columnFilterPass (board : TypedBoard) (filter : Option ColumnFilter)
    (todo : TodoItem) : Bool :=
  match filter with
  | none => true
  | some f =>
    (f.showCompleted || !todo.completed) &&
    (f.showIncomplete || todo.completed) &&
    (f.priorities.isEmpty || f.priorities.contains ((recLookupNat board.todoPriorities todo.id).getD 0)) &&
    (f.tags.isEmpty || f.tags.any (fun tag => containsSub todo.text tag))

/-- The board-pin comparator of `getTodosForColumn`
(src/src/engines/BoardEngine.ts:247-254) as a total preorder: board-pinned
tasks first, ties keep their relative order. -/
def boardPinLE (board : TypedBoard) (a b : TodoItem) : Bool :=
  board.pinnedIds.contains a.id || !(board.pinnedIds.contains b.id)

/-- Modelled from the spec: `getTodosForColumn` of the column-type-aware
engine revision (spec section 4.3 steps 1-5): take all tasks, drop the
board's archived ids, keep the tasks the column's type-selected membership
function accepts, apply the column's optional filter, and sort board-pinned
tasks first (stable). The task list is a parameter standing for the Task
Registry's current entity list. -/
def getTodosForColumn (today : Int) (allTodos : List TodoItem) (board : TypedBoard)
    (columnId : Str) : List TodoItem :=
  match board.columns.find? (fun c => c.id == columnId) with
  | none => []
  | some col =>
    isortLE (boardPinLE board) (allTodos.filter (fun todo =>
      !(board.archivedTodoIds.contains todo.id) &&
      columnMembership today board col todo &&
      columnFilterPass board col.filterConfig todo))

/-! ## General lemmas about the sorting and map helpers -/

theorem perm_insertLE (le : TodoItem → TodoItem → Bool) (x : TodoItem) :
    (l : List TodoItem) → List.Perm (insertLE le x l) (x :: l)
  | [] => List.Perm.refl _
  | y :: l => by
    cases h : le x y with
    | true => simp [insertLE, h]
    | false =>
      simp only [insertLE, h, Bool.false_eq_true, if_false]
      exact List.Perm.trans (List.Perm.cons y (perm_insertLE le x l)) (List.Perm.swap x y l)

theorem perm_isortLE (le : TodoItem → TodoItem → Bool) :
    (l : List TodoItem) → List.Perm (isortLE le l) l
  | [] => List.Perm.refl _
  | x :: l =>
    List.Perm.trans (perm_insertLE le x (isortLE le l))
      (List.Perm.cons x (perm_isortLE le l))

theorem mem_isortLE (le : TodoItem → TodoItem → Bool) (x : TodoItem) (l : List TodoItem) :
    x ∈ isortLE le l ↔ x ∈ l :=
  (perm_isortLE le l).mem_iff

/-! ## C10: board pin toggling -/

/-- Find-and-update interaction used by the board mutators. -/
theorem find_updateBoardGo (f : Board → Board) (bid : Str) (board : Board)
    (hid : (f board).id = board.id) :
    (l : List Board) → l.find? (fun b => b.id == bid) = some board →
      (updateBoardGo f bid l).find? (fun b => b.id == bid) = some (f board)
  | [], h => by simp [List.find?] at h
  | b :: r, h => by
    rw [List.find?_cons] at h
    cases hb : (b.id == bid) with
    | true =>
      simp only [hb] at h
      cases h
      simp only [updateBoardGo, hb, if_true, List.find?_cons]
      have : ((f board).id == bid) = true := by
        rw [hid]; exact hb
      simp [this]
    | false =>
      simp only [hb] at h
      simp only [updateBoardGo, hb, Bool.false_eq_true, if_false, List.find?_cons]
      exact find_updateBoardGo f bid board hid r h

theorem getBoard_updateBoard (s : BoardSettings) (bid : Str) (f : Board → Board)
    (board : Board) (hb : getBoard s bid = some board) (hid : (f board).id = board.id) :
    getBoard (updateBoard s bid f) bid = some (f board) :=
  find_updateBoardGo f bid board hid s.boards hb

/-- `l.contains a` agrees with list membership. -/
theorem containsIffMem (l : List Str) (a : Str) : l.contains a = true ↔ a ∈ l :=
  List.elem_iff

/-- The list-level toggle of the JavaScript pattern
`indexOf; if (-1) push else splice(index, 1)`. -/
def listToggle (l : List Str) (tid : Str) : List Str :=
  if l.contains tid then l.erase tid else l ++ [tid]

/-- The board transformer applied by `toggleBoardPin`. -/
def pinToggleFn (tid : Str) (b : Board) : Board :=
  { b with pinnedIds := listToggle b.pinnedIds tid }

theorem toggleBoardPin_eq_update (s : BoardSettings) (bid tid : Str) (board : Board)
    (hb : getBoard s bid = some board) :
    toggleBoardPin s bid tid = updateBoard s bid (pinToggleFn tid) := by
  unfold toggleBoardPin
  rw [hb]
  rfl

theorem erase_not_contains (l : List Str) (tid : Str) (hnd : l.Nodup) :
    (l.erase tid).contains tid = false := by
  cases hc : (l.erase tid).contains tid with
  | false => rfl
  | true =>
    exact absurd ((containsIffMem _ _).mp hc)
      (fun hm => ((hnd.mem_erase_iff.mp hm).1) rfl)

theorem contains_listToggle (l : List Str) (tid : Str) (hnd : l.Nodup) :
    (listToggle l tid).contains tid = !(l.contains tid) := by
  unfold listToggle
  cases h : l.contains tid with
  | true =>
    simp only [h, if_true]
    exact erase_not_contains l tid hnd
  | false =>
    simp only [h, Bool.false_eq_true, if_false, Bool.not_false]
    exact (containsIffMem _ _).mpr (by simp)

theorem mem_listToggle_twice (l : List Str) (tid : Str) (hnd : l.Nodup) (x : Str) :
    (x ∈ listToggle (listToggle l tid) tid) ↔ x ∈ l := by
  unfold listToggle
  cases h : l.contains tid with
  | true =>
    have hmem : tid ∈ l := (containsIffMem l tid).mp h
    simp only [h, if_true, erase_not_contains l tid hnd, Bool.false_eq_true, if_false]
    rw [List.mem_append, List.mem_singleton]
    by_cases hx : x = tid
    · subst hx; simp [hmem]
    · simp only [hx, or_false]
      exact List.mem_erase_of_ne hx
  | false =>
    have hmem : tid ∉ l := fun hm => by
      rw [(containsIffMem l tid).mpr hm] at h
      cases h
    have hca : (l ++ [tid]).contains tid = true := (containsIffMem _ _).mpr (by simp)
    simp only [h, Bool.false_eq_true, if_false, hca, if_true]
    rw [List.erase_append_right _ hmem]
    simp

theorem length_listToggle_twice (l : List Str) (tid : Str) (hnd : l.Nodup) :
    (listToggle (listToggle l tid) tid).length = l.length := by
  unfold listToggle
  cases h : l.contains tid with
  | true =>
    have hmem : tid ∈ l := (containsIffMem l tid).mp h
    simp only [h, if_true, erase_not_contains l tid hnd, Bool.false_eq_true, if_false]
    rw [List.length_append, List.length_erase_of_mem hmem]
    have : 0 < l.length := List.length_pos.mpr (fun he => by subst he; cases hmem)
    simp
    omega
  | false =>
    have hmem : tid ∉ l := fun hm => by
      rw [(containsIffMem l tid).mpr hm] at h
      cases h
    have hca : (l ++ [tid]).contains tid = true := (containsIffMem _ _).mpr (by simp)
    simp only [h, Bool.false_eq_true, if_false, hca, if_true]
    rw [List.erase_append_right _ hmem]
    simp

/-- C10 counterexample board: pins `[t, u]`. -/
def pinCexBoard : Board :=
  { id := str ("b1")
    name := str ("B")
    columns := []
    pinnedIds := [str ("t"), str ("u")]
    todoAssignments := []
    todoPriorities := []
    archivedTodoIds := [] }

/-- C10 counterexample state: one board with two pinned tasks. -/
def pinCexSettings : BoardSettings :=
  { boards := [pinCexBoard], activeBoardId := none }

/-- C10: the claim as stated is false: toggling a pinned task twice
moves it to the end of `pinnedIds`, so the list is not restored to its
original value. With board `b1` pinning `[t, u]`, toggling `t` twice
yields `[u, t]`. -/
theorem C10_pin_toggle_counterexample :
    (getBoard (toggleBoardPin (toggleBoardPin pinCexSettings (str ("b1")) (str ("t")))
        (str ("b1")) (str ("t"))) (str ("b1"))).map Board.pinnedIds
      = some [str ("u"), str ("t")] ∧
    (getBoard pinCexSettings (str ("b1"))).map Board.pinnedIds
      = some [str ("t"), str ("u")] ∧
    [str ("u"), str ("t")] ≠ [str ("t"), str ("u")] := by
  refine ⟨by decide, by decide, by decide⟩

/-- C10 (amended): for an existing board whose `pinnedIds` has no
duplicates, one `toggleBoardPin` call adds the task id if absent and
removes it if present, leaving every other board field unchanged; two
successive calls restore the original pinned membership and length
(though the order of `pinnedIds` may differ, as the counterexample
shows). -/
theorem C10_pin_toggle_involution (s : BoardSettings) (bid tid : Str) (board : Board)
    (hb : getBoard s bid = some board) (hnd : board.pinnedIds.Nodup) :
    (∃ board1, getBoard (toggleBoardPin s bid tid) bid = some board1 ∧
      board1.pinnedIds.contains tid = !(board.pinnedIds.contains tid) ∧
      board1.id = board.id ∧ board1.name = board.name ∧
      board1.columns = board.columns ∧
      board1.todoAssignments = board.todoAssignments ∧
      board1.todoPriorities = board.todoPriorities ∧
      board1.archivedTodoIds = board.archivedTodoIds ∧
      board1.hideEmptyColumns = board.hideEmptyColumns) ∧
    (∃ board2, getBoard (toggleBoardPin (toggleBoardPin s bid tid) bid tid) bid
        = some board2 ∧
      (∀ x, (x ∈ board2.pinnedIds) ↔ (x ∈ board.pinnedIds)) ∧
      board2.pinnedIds.length = board.pinnedIds.length ∧
      board2.id = board.id ∧ board2.name = board.name ∧
      board2.columns = board.columns ∧
      board2.todoAssignments = board.todoAssignments ∧
      board2.todoPriorities = board.todoPriorities ∧
      board2.archivedTodoIds = board.archivedTodoIds ∧
      board2.hideEmptyColumns = board.hideEmptyColumns) := by
  have h1eq := toggleBoardPin_eq_update s bid tid board hb
  have hid1 : (pinToggleFn tid board).id = board.id := rfl
  have hb1 : getBoard (toggleBoardPin s bid tid) bid = some (pinToggleFn tid board) := by
    rw [h1eq]; exact getBoard_updateBoard s bid _ board hb hid1
  have h2eq := toggleBoardPin_eq_update _ bid tid _ hb1
  have hb2 : getBoard (toggleBoardPin (toggleBoardPin s bid tid) bid tid) bid
      = some (pinToggleFn tid (pinToggleFn tid board)) := by
    rw [h2eq]
    exact getBoard_updateBoard _ bid _ _ hb1 rfl
  refine ⟨⟨pinToggleFn tid board, hb1, ?_, rfl, rfl, rfl, rfl, rfl, rfl, rfl⟩,
    ⟨pinToggleFn tid (pinToggleFn tid board), hb2, ?_, ?_, rfl, rfl, rfl, rfl, rfl, rfl, rfl⟩⟩
  · exact contains_listToggle board.pinnedIds tid hnd
  · exact mem_listToggle_twice board.pinnedIds tid hnd
  · exact length_listToggle_twice board.pinnedIds tid hnd

/-- C10 witness: the amended theorem applied to a concrete board where
`t` is initially unpinned. -/
def pinWitnessBoard : Board :=
  { id := str ("b1")
    name := str ("B")
    columns := []
    pinnedIds := [str ("u")]
    todoAssignments := []
    todoPriorities := []
    archivedTodoIds := [] }

def pinWitnessSettings : BoardSettings :=
  { boards := [pinWitnessBoard], activeBoardId := none }

theorem C10_pin_toggle_involution_witness :
    ∃ board2, getBoard (toggleBoardPin (toggleBoardPin pinWitnessSettings
        (str ("b1")) (str ("t"))) (str ("b1")) (str ("t"))) (str ("b1")) = some board2 ∧
      (∀ x, (x ∈ board2.pinnedIds) ↔
        (x ∈ [str ("u")])) := by
  obtain ⟨-, board2, h2, hmem, -⟩ :=
    C10_pin_toggle_involution pinWitnessSettings (str ("b1")) (str ("t"))
      pinWitnessBoard (by decide) (by decide)
  exact ⟨board2, h2, hmem⟩

/-! ## C9: failure semantics of toggleTodo -/

/-- C9: if `toggleTodo` finds the task id unknown, the task's file missing
from the store, or the recorded line number out of range of the document's
current lines, it reports failure and leaves both the document store and
the registry state untouched. The embedding is total, reflecting that the
source returns `false` on these paths instead of throwing. -/
theorem C9_toggleTodo_failure_noop (st : TodoEngineState) (v : Vault) (todoId : Str)
    (h : alistLookup st.todos todoId = none ∨
      (∃ todo, alistLookup st.todos todoId = some todo ∧
        vaultRead v todo.filePath = none) ∨
      (∃ todo content, alistLookup st.todos todoId = some todo ∧
        vaultRead v todo.filePath = some content ∧
        (todo.lineNumber = 0 ∨ (splitOnNl content).length < todo.lineNumber))) :
    toggleTodo st v todoId = (false, v, st) := by
  rcases h with h | ⟨todo, hlook, hread⟩ | ⟨todo, content, hlook, hread, hline⟩
  · unfold toggleTodo
    rw [h]
  · unfold toggleTodo
    simp only [hlook, hread]
  · unfold toggleTodo
    have hidx : jsIndex (splitOnNl content) ((todo.lineNumber : Int) - 1) = none := by
      rcases hline with h0 | hgt
      · rw [h0]
        simp [jsIndex]
      · unfold jsIndex
        rw [if_neg (by omega)]
        apply List.get?_eq_none.mpr
        omega
    simp only [hlook, hread, hidx]

/-- C9 witness state: one registered task whose recorded line number (5)
exceeds the single line of its document's current content. -/
def toggleWitnessTodo : TodoItem :=
  { id := str ("f:5")
    text := str ("a")
    filePath := str ("f")
    lineNumber := 5
    completed := false
    priority := MAX_SAFE_INTEGER
    rawLine := str ("- [ ] a")
    pinned := false
    indentLevel := 0
    parentId := none
    dueDate := none
    tags := [] }

def toggleWitnessState : TodoEngineState :=
  { todos := [(str ("f:5"), toggleWitnessTodo)]
    settings := emptySettings }

def toggleWitnessVault : Vault := { files := [(str ("f"), str ("- [ ] a"))] }

theorem C9_toggleTodo_failure_noop_witness :
    toggleTodo toggleWitnessState toggleWitnessVault (str ("f:5"))
      = (false, toggleWitnessVault, toggleWitnessState) :=
  C9_toggleTodo_failure_noop toggleWitnessState toggleWitnessVault (str ("f:5"))
    (Or.inr (Or.inr ⟨toggleWitnessTodo, str ("- [ ] a"), by decide, by decide,
      Or.inr (by decide)⟩))

/-! ## C7: debounce coalescing -/

theorem queueFileUpdate_fixpoint (p : Str) (b : Bool) (e : TodoEngineState) :
    queueFileUpdate { pendingFiles := [p], timerActive := b, engine := e } p
      = { pendingFiles := [p], timerActive := true, engine := e } := by
  unfold queueFileUpdate setAdd
  rw [if_pos]
  simp [List.contains]

theorem applyN_fixpoint (f : DebounceState → DebounceState) (d : DebounceState)
    (hf : f d = d) : ∀ n, applyN f n d = d
  | 0 => rfl
  | n + 1 => by
    unfold applyN
    rw [hf]
    exact applyN_fixpoint f d hf n

/-- C7: if `n ≥ 1` modify events for the same document path arrive, each
enqueuing the path and restarting the debounce timer before it fires, then
the uninterrupted firing of the timer drains a pending set containing that
path exactly once, rescans it exactly once using the vault's content at
fire time, and emits exactly one update notification. -/
theorem C7_debounce_coalescing (n : Nat) (hn : 1 ≤ n) (p : Str)
    (e : TodoEngineState) (tA : Bool) (v : Vault) :
    processPendingUpdates
      (applyN (fun d => queueFileUpdate d p) n
        { pendingFiles := [], timerActive := tA, engine := e }) v
      = ({ pendingFiles := [], timerActive := false,
            engine := match vaultRead v p with
              | some content => scanFile e p content
              | none => e },
          1, [p]) := by
  obtain ⟨m, rfl⟩ : ∃ m, n = m + 1 := ⟨n - 1, by omega⟩
  have h1 : queueFileUpdate { pendingFiles := [], timerActive := tA, engine := e } p
      = { pendingFiles := [p], timerActive := true, engine := e } := by
    unfold queueFileUpdate setAdd
    rw [if_neg (by simp [List.contains])]
    rfl
  have h2 : applyN (fun d => queueFileUpdate d p) (m + 1)
      { pendingFiles := [], timerActive := tA, engine := e }
      = { pendingFiles := [p], timerActive := true, engine := e } := by
    unfold applyN
    rw [h1]
    exact applyN_fixpoint _ _ (queueFileUpdate_fixpoint p true e) m
  rw [h2]
  unfold processPendingUpdates
  cases hv : vaultRead v p with
  | none =>
    simp only [List.foldl_cons, List.foldl_nil, hv]
    rfl
  | some content =>
    simp only [List.foldl_cons, List.foldl_nil, hv]
    rfl

/-- C7 witness: five modify events for the same path, then one timer
firing, over a concrete vault and an empty registry. -/
def debounceWitnessVault : Vault := { files := [(str ("f"), str ("- [ ] a"))] }

theorem C7_debounce_coalescing_witness :
    processPendingUpdates
      (applyN (fun d => queueFileUpdate d (str ("f"))) 5
        { pendingFiles := [], timerActive := false, engine := emptyEngineState })
      debounceWitnessVault
      = ({ pendingFiles := [], timerActive := false,
            engine := scanFile emptyEngineState (str ("f")) (str ("- [ ] a")) },
          1, [str ("f")]) := by
  have h := C7_debounce_coalescing 5 (by omega) (str ("f"))
    emptyEngineState false debounceWitnessVault
  rw [h]
  rfl

/-! ## C2: task identity depends only on path and line -/

/-- Membership in the values of a map after `Map.set`. -/
theorem mem_values_alistSet (k : Str) (v : TodoItem) (t : TodoItem) :
    (m : List (Str × TodoItem)) → t ∈ mapValues (alistSet m k v) →
      t ∈ mapValues m ∨ t = v
  | [], h => by
    simp [alistSet, mapValues] at h
    exact Or.inr h
  | e :: r, h => by
    unfold alistSet at h
    by_cases he : (e.1 == k) = true
    · rw [if_pos he] at h
      rw [show mapValues ((k, v) :: r) = v :: mapValues r from rfl, List.mem_cons] at h
      rcases h with h | h
      · exact Or.inr h
      · exact Or.inl (show t ∈ mapValues (e :: r) from List.mem_cons_of_mem e.2 h)
    · rw [if_neg he] at h
      rw [show mapValues (e :: alistSet r k v) = e.2 :: mapValues (alistSet r k v) from rfl,
        List.mem_cons] at h
      rcases h with h | h
      · exact Or.inl (show t ∈ mapValues (e :: r) from by
          rw [h]; exact List.mem_cons_self e.2 (mapValues r))
      · rcases mem_values_alistSet k v t r h with h2 | h2
        · exact Or.inl (show t ∈ mapValues (e :: r) from List.mem_cons_of_mem e.2 h2)
        · exact Or.inr h2

/-- Every entity the scan loop adds for `path` carries that file path, the
id computed from (path, line number), and a positive line number. -/
theorem scanFileGo_mem (settings : TodoEngineSettings) (path : Str) :
    ∀ lines i stack acc (t : TodoItem),
      t ∈ mapValues (scanFileGo settings path lines i stack acc) →
      t ∈ mapValues acc ∨
        (t.filePath = path ∧ t.id = idFor path t.lineNumber ∧ 1 ≤ t.lineNumber)
  | [], _, _, _, _, h => Or.inl h
  | line :: rest, i, stack, acc, t, h => by
    unfold scanFileGo at h
    cases hp : parseTodoLine line with
    | none =>
      rw [hp] at h
      exact scanFileGo_mem settings path rest (i + 1) stack acc t h
    | some v =>
      rw [hp] at h
      obtain ⟨indent, completed, rawText⟩ := v
      rcases scanFileGo_mem settings path rest (i + 1) _ _ t h with h2 | h2
      · rcases mem_values_alistSet _ _ t acc h2 with h3 | h3
        · exact Or.inl h3
        · subst h3
          exact Or.inr ⟨rfl, rfl, Nat.le_add_left 1 i⟩
      · exact Or.inr h2

/-- Values of the other-files remainder kept by `removeTodosFromFile`. -/
theorem mem_values_removeTodos (st : TodoEngineState) (path : Str) (t : TodoItem)
    (h : t ∈ mapValues (removeTodosFromFile st path).todos) : ¬ t.filePath = path := by
  unfold removeTodosFromFile at h
  simp only [mapValues, List.mem_map] at h
  obtain ⟨e, he, rfl⟩ := h
  have := (List.mem_filter.mp he).2
  intro hc
  rw [hc] at this
  simp at this

/-- Any entity of file `path` present after `scanFile` has the id computed
from (path, line number). -/
theorem scanFile_id_shape (st : TodoEngineState) (p : Str) (c : Str) (t : TodoItem)
    (hmem : t ∈ mapValues (scanFile st p c).todos) (hpath : t.filePath = p) :
    t.id = idFor p t.lineNumber := by
  unfold scanFile at hmem
  rcases scanFileGo_mem st.settings p (splitOnNl c) 0 [] _ t hmem with h | h
  · exact absurd hpath (mem_values_removeTodos st p t h)
  · exact h.2.1

/-- C2: a task entity's id is derived only from its document path and line
number, never from the task's text: `generateId` ignores its text
argument, and any two rescans of the same path that leave a task on line
`n` give that task the same id, whatever the two contents are. -/
theorem C2_id_from_path_and_line :
    (∀ p n t1 t2, generateId p n t1 = generateId p n t2) ∧
    (∀ st1 st2 p c1 c2 n todo1 todo2,
      todo1 ∈ mapValues (scanFile st1 p c1).todos → todo1.filePath = p →
      todo1.lineNumber = n →
      todo2 ∈ mapValues (scanFile st2 p c2).todos → todo2.filePath = p →
      todo2.lineNumber = n →
      todo1.id = todo2.id) := by
  refine ⟨fun p n t1 t2 => rfl, ?_⟩
  intro st1 st2 p c1 c2 n todo1 todo2 h1 hp1 hn1 h2 hp2 hn2
  rw [scanFile_id_shape st1 p c1 todo1 h1 hp1,
    scanFile_id_shape st2 p c2 todo2 h2 hp2, hn1, hn2]

/-- The task record the scan of `- [ ] alpha` produces on line 1 of `f`. -/
def alphaTodo : TodoItem :=
  { id := str ("f:1")
    text := str ("alpha")
    filePath := str ("f")
    lineNumber := 1
    completed := false
    priority := MAX_SAFE_INTEGER
    rawLine := str ("- [ ] alpha")
    pinned := false
    indentLevel := 0
    parentId := none
    dueDate := none
    tags := [] }

/-- The task record the scan of `- [ ] beta` produces on line 1 of `f`. -/
def betaTodo : TodoItem :=
  { id := str ("f:1")
    text := str ("beta")
    filePath := str ("f")
    lineNumber := 1
    completed := false
    priority := MAX_SAFE_INTEGER
    rawLine := str ("- [ ] beta")
    pinned := false
    indentLevel := 0
    parentId := none
    dueDate := none
    tags := [] }

/-- C2 witness: two contents differing only in the text of the task on
line 1 yield tasks with the same id. -/
theorem C2_id_from_path_and_line_witness :
    alphaTodo ∈ mapValues (scanFile emptyEngineState (str ("f")) (str ("- [ ] alpha"))).todos ∧
    betaTodo ∈ mapValues (scanFile emptyEngineState (str ("f")) (str ("- [ ] beta"))).todos ∧
    alphaTodo.id = betaTodo.id :=
  ⟨by decide, by decide,
    C2_id_from_path_and_line.2 emptyEngineState emptyEngineState
      (str ("f")) (str ("- [ ] alpha")) (str ("- [ ] beta")) 1 alphaTodo betaTodo
      (by decide) (by decide) (by decide) (by decide) (by decide) (by decide)⟩

/-! ## C5: parent resolution and sub-task progress -/

/-- Example document: parent `P` with three sub-tasks of which one is
completed, followed by an unrelated parent `Q` with one open sub-task. -/
def subTaskDoc1 : Str :=
  str ("- [ ] P\n  - [x] s1\n  - [ ] s2\n  - [ ] s3\n- [ ] Q\n  - [ ] q1")

/-- The same document after completing the second sub-task of `P`. -/
def subTaskDoc2 : Str :=
  str ("- [ ] P\n  - [x] s1\n  - [x] s2\n  - [ ] s3\n- [ ] Q\n  - [ ] q1")

/-- C5: sub-task progress. In general, `getSubTaskProgress` counts exactly
the entities whose `parentId` (assigned by the scan's ancestor-stack
resolution) equals the given id, completed and total. In particular, for
the document scanned through the stack algorithm with parent `P` owning
sub-tasks `s1 (done), s2, s3`, the progress of `P` is `(1, 3)`; after
completing `s2` it is `(2, 3)`, and the progress of the sibling parent `Q`
is `(0, 1)` in both states. -/
theorem C5_subtask_progress :
    (∀ (st : TodoEngineState) (todoId : Str),
      getSubTaskProgress st todoId
        = ((mapValues st.todos).countP (fun t => t.parentId == some todoId && t.completed),
           (mapValues st.todos).countP (fun t => t.parentId == some todoId))) ∧
    (getSubTaskProgress (scanFile emptyEngineState (str ("d")) subTaskDoc1) (str ("d:1"))
        = (1, 3) ∧
     getSubTaskProgress (scanFile emptyEngineState (str ("d")) subTaskDoc2) (str ("d:1"))
        = (2, 3) ∧
     getSubTaskProgress (scanFile emptyEngineState (str ("d")) subTaskDoc1) (str ("d:5"))
        = (0, 1) ∧
     getSubTaskProgress (scanFile emptyEngineState (str ("d")) subTaskDoc2) (str ("d:5"))
        = (0, 1)) := by
  constructor
  · intro st todoId
    unfold getSubTaskProgress getSubTasks
    have hperm := perm_isortLE (fun a b => a.lineNumber ≤ b.lineNumber)
      ((mapValues st.todos).filter (fun t => t.parentId == some todoId))
    simp only [Prod.mk.injEq]
    constructor
    · rw [← List.countP_eq_length_filter, hperm.countP_eq, List.countP_filter]
      congr 1
      funext t
      rw [Bool.and_comm]
    · rw [hperm.length_eq, ← List.countP_eq_length_filter]
  · exact ⟨by decide, by decide, by decide, by decide⟩

/-! ## C6: filtered, pinned-first, priority-ordered listing -/

/-- Membership in the `getTodos` result: the entity set filtered by the
hide-completed flag and the tag allow-list (sorting permutes only). -/
theorem mem_getTodos_iff (st : TodoEngineState) (t : TodoItem) :
    t ∈ getTodos st ↔
      (t ∈ mapValues st.todos ∧
        (st.settings.hideCompleted = true → t.completed = false) ∧
        (st.settings.tagFilters ≠ [] →
          ∃ tag ∈ st.settings.tagFilters, containsSub t.text tag = true)) := by
  unfold getTodos
  rw [mem_isortLE]
  cases hc : st.settings.hideCompleted with
  | true =>
    cases ht : st.settings.tagFilters with
    | nil => simp [List.mem_filter]
    | cons a l =>
      simp [List.mem_filter, List.any_eq_true, and_assoc]
      intro
      exact And.comm
  | false =>
    cases ht : st.settings.tagFilters with
    | nil => simp [List.mem_filter]
    | cons a l => simp [List.mem_filter, List.any_eq_true]

/-- A task id absent from the priority order gets the maximal sentinel. -/
theorem getPriority_not_mem (s : TodoEngineSettings) (id : Str)
    (h : id ∉ s.priorityOrder) : getPriority s id = MAX_SAFE_INTEGER := by
  unfold getPriority
  rw [List.findIdx?_eq_none_iff.mpr]
  intro x hx
  cases hb : (x == id) with
  | false => rfl
  | true => exact absurd (by rw [eq_of_beq hb] at hx; exact hx) h

/-- C6 concrete state: three unpinned tasks `x`, `y`, `z` and no prior
priority order. -/
def xTodo : TodoItem :=
  { id := str ("x"), text := str ("X"), filePath := str ("g"), lineNumber := 1,
    completed := false, priority := MAX_SAFE_INTEGER, rawLine := str ("- [ ] X"),
    pinned := false, indentLevel := 0, parentId := none, dueDate := none, tags := [] }

def yTodo : TodoItem :=
  { id := str ("y"), text := str ("Y"), filePath := str ("g"), lineNumber := 2,
    completed := false, priority := MAX_SAFE_INTEGER, rawLine := str ("- [ ] Y"),
    pinned := false, indentLevel := 0, parentId := none, dueDate := none, tags := [] }

def zTodo : TodoItem :=
  { id := str ("z"), text := str ("Z"), filePath := str ("g"), lineNumber := 3,
    completed := false, priority := MAX_SAFE_INTEGER, rawLine := str ("- [ ] Z"),
    pinned := false, indentLevel := 0, parentId := none, dueDate := none, tags := [] }

def prioState : TodoEngineState :=
  { todos := [(str ("x"), xTodo), (str ("y"), yTodo), (str ("z"), zTodo)]
    settings := emptySettings }

/-- C6: `getTodos` returns the entity set filtered by the hide-completed
flag and the tag allow-list, sorted pinned-first then by ascending
priority-order index; an id absent from the priority order gets the
maximal sentinel index and sorts last. Concretely, after
`updatePriorities [z, x]` over unpinned tasks `x, y, z` with no prior
order, the returned order is `z, x, y` with priorities `0, 1, sentinel`. -/
theorem C6_getTodos_order :
    (∀ (st : TodoEngineState) (t : TodoItem),
      t ∈ getTodos st ↔
        (t ∈ mapValues st.todos ∧
          (st.settings.hideCompleted = true → t.completed = false) ∧
          (st.settings.tagFilters ≠ [] →
            ∃ tag ∈ st.settings.tagFilters, containsSub t.text tag = true))) ∧
    (∀ (s : TodoEngineSettings) (id : Str),
      id ∉ s.priorityOrder → getPriority s id = MAX_SAFE_INTEGER) ∧
    ((getTodos (updatePriorities prioState [str ("z"), str ("x")])).map TodoItem.id
        = [str ("z"), str ("x"), str ("y")] ∧
     (getTodos (updatePriorities prioState [str ("z"), str ("x")])).map TodoItem.priority
        = [0, 1, MAX_SAFE_INTEGER]) :=
  ⟨mem_getTodos_iff, getPriority_not_mem, by decide, by decide⟩

/-- C6 witness: the characterizations applied at a concrete state. -/
theorem C6_getTodos_order_witness :
    (xTodo ∈ getTodos prioState) ∧ getPriority emptySettings (str ("q")) = MAX_SAFE_INTEGER :=
  ⟨(C6_getTodos_order.1 prioState xTodo).mpr
      ⟨by decide, fun h => by decide, fun h => absurd (by decide) h⟩,
    C6_getTodos_order.2.1 emptySettings (str ("q")) (by decide)⟩

/-! ## C4: task-line grammar -/

/-- The spec's task-line grammar (spec section 6), stated from the spec's
words as a decomposition:
`<ws>* ('-'|'*') <ws>+ '[' (' '|'x'|'X') ']' <ws>+ <text>`,
with `<text>` a nonempty free-text suffix. -/
def SpecTaskLineParts (line ws1 : Str) (marker : Char) (ws2 : Str) (box : Char)
    (ws3 text : Str) : Prop :=
  line = ws1 ++ marker :: (ws2 ++ '[' :: box :: ']' :: (ws3 ++ text)) ∧
  (∀ c ∈ ws1, isWsChar c = true) ∧
  (marker = '-' ∨ marker = '*') ∧
  ws2 ≠ [] ∧ (∀ c ∈ ws2, isWsChar c = true) ∧
  (box = ' ' ∨ box = 'x' ∨ box = 'X') ∧
  ws3 ≠ [] ∧ (∀ c ∈ ws3, isWsChar c = true) ∧
  text ≠ []

/-- `takeWhile`/`dropWhile` on a whitespace run followed by a
non-whitespace character. -/
theorem spanWsAppend (p : Char → Bool) (x : Char) (r : Str) (hx : p x = false) :
    (l : Str) → (∀ c ∈ l, p c = true) →
      (l ++ x :: r).takeWhile p = l ∧ (l ++ x :: r).dropWhile p = x :: r
  | [], _ => by
    rw [List.nil_append, List.takeWhile_cons, List.dropWhile_cons, hx]
    exact ⟨rfl, rfl⟩
  | c :: l, hl => by
    have hc : p c = true := hl c (List.mem_cons_self c l)
    have ih := spanWsAppend p x r hx l (fun d hd => hl d (List.mem_cons_of_mem c hd))
    rw [List.cons_append, List.takeWhile_cons, List.dropWhile_cons, hc]
    rw [if_pos rfl, if_pos rfl]
    exact ⟨by rw [ih.1], ih.2⟩

/-- The amended task-line grammar: as `SpecTaskLineParts`, but with the
free text restricted to characters the regex `.` matches — no line
terminators — which is what `(.+)$` enforces in the source. -/
def SpecTaskLinePartsDot (line ws1 : Str) (marker : Char) (ws2 : Str) (box : Char)
    (ws3 text : Str) : Prop :=
  SpecTaskLineParts line ws1 marker ws2 box ws3 text ∧
  (∀ c ∈ text, isDotChar c = true)

/-- `dropWhile` jumps over a fully satisfying prefix. -/
theorem dropWhileAppendAll (p : Char → Bool) (r : Str) :
    (l : Str) → (∀ c ∈ l, p c = true) → (l ++ r).dropWhile p = r.dropWhile p
  | [], _ => rfl
  | c :: l, hl => by
    rw [List.cons_append, List.dropWhile_cons, hl c (List.mem_cons_self c l)]
    rw [if_pos rfl]
    exact dropWhileAppendAll p r l (fun d hd => hl d (List.mem_cons_of_mem c hd))

/-- `getLastD` of an append with nonempty right part. -/
theorem getLastDAppendRight (r : Str) (hr : r ≠ []) (l : Str) (d : Char) :
    (l ++ r).getLastD d = r.getLastD d := by
  rw [List.getLastD_eq_getLast?, List.getLastD_eq_getLast?,
    List.getLast?_append_of_ne_nil l hr]

/-- `getLastD` of a nonempty list is a member. -/
theorem getLastDMem (r : Str) (d : Char) (hr : r ≠ []) : r.getLastD d ∈ r := by
  rw [List.getLastD_eq_getLast?, List.getLast?_eq_getLast _ hr]
  exact List.getLast_mem hr

/-- Soundness of the line parser against the amended grammar: every
accepted line decomposes as the grammar prescribes with line-terminator
free text, the reported indent is the length of the leading whitespace,
and the completed flag is set exactly for an `x`/`X` checkbox. -/
theorem parseTodoLine_sound (line : Str) (ind : Nat) (comp : Bool) (t : Str)
    (hparse : parseTodoLine line = some (ind, comp, t)) :
    ∃ ws1 marker ws2 box ws3 text,
      SpecTaskLinePartsDot line ws1 marker ws2 box ws3 text ∧
        ind = ws1.length ∧ comp = (box == 'x' || box == 'X') := by
  unfold parseTodoLine parseAfterMarker parseAfterBox at hparse
  split at hparse
  case h_2 => exact absurd hparse (by simp)
  case h_1 m r2 hd =>
  split at hparse
  case isFalse => exact absurd hparse (by simp)
  case isTrue hm =>
  split at hparse
  case isTrue => exact absurd hparse (by simp)
  case isFalse hw2 =>
  split at hparse
  case h_2 => exact absurd hparse (by simp)
  case h_1 b rest hd2 =>
  split at hparse
  case isFalse => exact absurd hparse (by simp)
  case isTrue hb =>
  have hline : line = line.takeWhile isWsChar ++ m :: r2 := by
    conv_lhs => rw [← List.takeWhile_append_dropWhile isWsChar line]
    rw [hd]
  have hr2 : r2 = r2.takeWhile isWsChar ++ '[' :: b :: ']' :: rest := by
    conv_lhs => rw [← List.takeWhile_append_dropWhile isWsChar r2]
    rw [hd2]
  have hmarker : m = '-' ∨ m = '*' := by simpa using hm
  have hbox : b = ' ' ∨ b = 'x' ∨ b = 'X' := or_assoc.mp (by simpa using hb)
  have hws1 : ∀ c ∈ line.takeWhile isWsChar, isWsChar c = true :=
    fun c hc => List.mem_takeWhile_imp hc
  have hws2all : ∀ c ∈ r2.takeWhile isWsChar, isWsChar c = true :=
    fun c hc => List.mem_takeWhile_imp hc
  have hws2ne : r2.takeWhile isWsChar ≠ [] := by
    intro he
    rw [he] at hw2
    exact hw2 rfl
  split at hparse
  case isTrue => exact absurd hparse (by simp)
  case isFalse hw3 =>
  have hws3all : ∀ c ∈ rest.takeWhile isWsChar, isWsChar c = true :=
    fun c hc => List.mem_takeWhile_imp hc
  have hws3ne : rest.takeWhile isWsChar ≠ [] := by
    intro he
    rw [he] at hw3
    exact hw3 rfl
  split at hparse
  case isFalse hr5 =>
    split at hparse
    case isFalse => exact absurd hparse (by simp)
    case isTrue hall =>
    simp only [Option.some.injEq, Prod.mk.injEq] at hparse
    obtain ⟨h1, h2, h3⟩ := hparse
    refine ⟨line.takeWhile isWsChar, m, r2.takeWhile isWsChar, b,
      rest.takeWhile isWsChar, rest.dropWhile isWsChar,
      ⟨⟨?_, hws1, hmarker, hws2ne, hws2all, hbox, hws3ne, hws3all, ?_⟩,
        List.all_eq_true.mp hall⟩, h1.symm, h2.symm⟩
    · conv_lhs => rw [hline, hr2]
      rw [List.takeWhile_append_dropWhile]
    · intro he
      rw [he] at hr5
      exact hr5 rfl
  case isTrue hr5 =>
  split at hparse
  case isFalse => exact absurd hparse (by simp)
  case isTrue hlen =>
  split at hparse
  case isFalse => exact absurd hparse (by simp)
  case isTrue hdot =>
  simp only [Option.some.injEq, Prod.mk.injEq] at hparse
  obtain ⟨h1, h2, h3⟩ := hparse
  have hr5nil : rest.dropWhile isWsChar = [] := List.isEmpty_iff.mp hr5
  have hw3eq : rest.takeWhile isWsChar = rest := by
    conv_rhs => rw [← List.takeWhile_append_dropWhile isWsChar rest]
    rw [hr5nil, List.append_nil]
  have hdl : (rest.takeWhile isWsChar).dropLast
      ++ [(rest.takeWhile isWsChar).getLast hws3ne] = rest.takeWhile isWsChar :=
    List.dropLast_append_getLast hws3ne
  have hgetD : (rest.takeWhile isWsChar).getLastD ' '
      = (rest.takeWhile isWsChar).getLast hws3ne := by
    rw [List.getLastD_eq_getLast?, List.getLast?_eq_getLast _ hws3ne]
    rfl
  refine ⟨line.takeWhile isWsChar, m, r2.takeWhile isWsChar, b,
    (rest.takeWhile isWsChar).dropLast, [(rest.takeWhile isWsChar).getLastD ' '],
    ⟨⟨?_, hws1, hmarker, hws2ne, hws2all, hbox, ?_, ?_, by simp⟩, ?_⟩,
    h1.symm, h2.symm⟩
  · rw [hgetD]
    conv_lhs => rw [hline, hr2]
    congr 2
    rw [hdl, hw3eq]
  · intro he
    have hcong := congrArg List.length hdl
    rw [he] at hcong
    simp only [List.nil_append, List.length_singleton] at hcong
    omega
  · intro c hc
    exact hws3all c (List.dropLast_subset _ hc)
  · intro c hc
    rw [List.mem_singleton.mp hc]
    exact hdot

/-- Completeness of the line parser for the amended grammar: every line
admitting a grammar decomposition whose text is free of line terminators
is accepted, with the indent and the completed flag determined by the
decomposition. -/
theorem parseTodoLine_complete (line ws1 : Str) (marker : Char) (ws2 : Str)
    (box : Char) (ws3 text : Str)
    (h : SpecTaskLinePartsDot line ws1 marker ws2 box ws3 text) :
    ∃ t, parseTodoLine line = some (ws1.length, box == 'x' || box == 'X', t) := by
  obtain ⟨⟨hline, hws1, hmarker, hws2ne, hws2all, hbox, hws3ne, hws3all, htext⟩,
    htextdot⟩ := h
  have hmNotWs : isWsChar marker = false := by
    rcases hmarker with rfl | rfl <;> rfl
  have hbrNotWs : isWsChar '[' = false := rfl
  have hspan1 := spanWsAppend isWsChar marker
    (ws2 ++ '[' :: box :: ']' :: (ws3 ++ text)) hmNotWs ws1 hws1
  have hspan2 := spanWsAppend isWsChar '[' (box :: ']' :: (ws3 ++ text))
    hbrNotWs ws2 hws2all
  have hd : line.dropWhile isWsChar
      = marker :: (ws2 ++ '[' :: box :: ']' :: (ws3 ++ text)) := by
    rw [hline]
    exact hspan1.2
  have ht : line.takeWhile isWsChar = ws1 := by
    rw [hline]
    exact hspan1.1
  have hmEq : (marker == '-' || marker == '*') = true := by
    rcases hmarker with rfl | rfl <;> rfl
  have hbEq : (box == ' ' || box == 'x' || box == 'X') = true := by
    rcases hbox with rfl | rfl | rfl <;> rfl
  obtain ⟨c3, ws3r, rfl⟩ : ∃ c3 ws3r, ws3 = c3 :: ws3r := by
    cases ws3 with
    | nil => exact absurd rfl hws3ne
    | cons c3 ws3r => exact ⟨c3, ws3r, rfl⟩
  have hc3 : isWsChar c3 = true := hws3all c3 (List.mem_cons_self c3 ws3r)
  have hR : ∀ s : Str, s = (c3 :: ws3r) ++ text →
      ∃ t, parseAfterBox ws1.length (box == 'x' || box == 'X') s
        = some (ws1.length, box == 'x' || box == 'X', t) := by
    intro s hs
    have htw : s.takeWhile isWsChar = c3 :: (ws3r ++ text).takeWhile isWsChar := by
      rw [hs, List.cons_append, List.takeWhile_cons, hc3]
      rfl
    have htwne : ¬ (s.takeWhile isWsChar).isEmpty = true := by
      rw [htw]
      simp
    unfold parseAfterBox
    rw [if_neg htwne]
    cases hr5 : (s.dropWhile isWsChar).isEmpty with
    | false =>
      rw [if_neg (show ¬(false = true) by simp)]
      have hall : (s.dropWhile isWsChar).all isDotChar = true := by
        rw [List.all_eq_true]
        intro c hc
        have hc2 : c ∈ text := by
          rw [hs, dropWhileAppendAll isWsChar text (c3 :: ws3r) hws3all] at hc
          exact (List.dropWhile_sublist isWsChar).subset hc
        exact htextdot c hc2
      rw [if_pos hall]
      exact ⟨s.dropWhile isWsChar, rfl⟩
    | true =>
      rw [if_pos (show true = true from rfl)]
      have hr5nil : s.dropWhile isWsChar = [] := List.isEmpty_iff.mp hr5
      have hweq : s.takeWhile isWsChar = s := by
        conv_rhs => rw [← List.takeWhile_append_dropWhile isWsChar s]
        rw [hr5nil, List.append_nil]
      have hlen : 2 ≤ (s.takeWhile isWsChar).length := by
        rw [hweq, hs, List.length_append, List.length_cons]
        have : 0 < text.length := List.length_pos.mpr htext
        omega
      rw [if_pos hlen]
      have hlast : isDotChar ((s.takeWhile isWsChar).getLastD ' ') = true := by
        rw [hweq, hs, getLastDAppendRight text htext (c3 :: ws3r) ' ']
        exact htextdot _ (getLastDMem text ' ' htext)
      rw [if_pos hlast]
      exact ⟨[(s.takeWhile isWsChar).getLastD ' '], rfl⟩
  obtain ⟨t, hres⟩ := hR ((c3 :: ws3r) ++ text) rfl
  refine ⟨t, ?_⟩
  unfold parseTodoLine
  rw [ht]
  simp only [hd, hmEq, if_true]
  unfold parseAfterMarker
  simp only [hspan2.1, hspan2.2]
  rw [if_neg (by simp [List.isEmpty_iff, hws2ne])]
  simp only [hbEq, if_true]
  exact hres

/-- C4 counterexample: `- [ ] a` followed by a carriage return (the
visible line of a CRLF document split on `\n`) matches the claim's
grammar, with free text `a` + CR, yet the parser yields no record: the
regex dot does not match CR, so `(.+)$` can never reach the end of this
line. -/
theorem C4_taskline_grammar_counterexample :
    SpecTaskLineParts (str ("- [ ] a\r")) [] '-' [' '] ' ' [' '] (str ("a\r")) ∧
    parseTodoLine (str ("- [ ] a\r")) = none := by
  constructor
  · refine ⟨?_, ?_, ?_, ?_, ?_, ?_, ?_, ?_, ?_⟩ <;> decide
  · decide

/-- C4 (amended): a line yields a task record if and only if it matches
the task-line grammar
`<ws>* ('-'|'*') <ws>+ '[' (' '|'x'|'X') ']' <ws>+ <text>`
with the free text additionally restricted to characters the regex dot
matches (no LF, CR, LS or PS — the counterexample shows a CR-terminated
text is rejected); the record's completed flag is true exactly when the
checkbox character is `x` or `X`; and a non-matching line is skipped by
the scan loop without error or effect. -/
theorem C4_taskline_grammar :
    (∀ line ind comp t, parseTodoLine line = some (ind, comp, t) →
      ∃ ws1 marker ws2 box ws3 text,
        SpecTaskLinePartsDot line ws1 marker ws2 box ws3 text ∧
          ind = ws1.length ∧ comp = (box == 'x' || box == 'X')) ∧
    (∀ line ws1 marker ws2 box ws3 text,
      SpecTaskLinePartsDot line ws1 marker ws2 box ws3 text →
      ∃ t, parseTodoLine line = some (ws1.length, box == 'x' || box == 'X', t)) ∧
    (∀ settings path line rest i stack acc, parseTodoLine line = none →
      scanFileGo settings path (line :: rest) i stack acc
        = scanFileGo settings path rest (i + 1) stack acc) :=
  ⟨parseTodoLine_sound, parseTodoLine_complete,
    fun settings path line rest i stack acc h => by
      conv_lhs => rw [scanFileGo]
      rw [h]⟩

/-- C4 witness: the grammar directions applied to a concrete matching
line (completed, via checkbox `X`) and a concrete non-matching line. -/
theorem C4_taskline_grammar_witness :
    (∃ t, parseTodoLine (str ("- [X] do")) = some (0, true, t)) ∧
    scanFileGo emptySettings (str ("f")) [str ("x [ ] nope")] 0 [] []
      = scanFileGo emptySettings (str ("f")) [] 1 [] [] :=
  ⟨C4_taskline_grammar.2.1 (str ("- [X] do")) [] '-' [' '] 'X' [' '] (str ("do"))
      ⟨by refine ⟨?_, ?_, ?_, ?_, ?_, ?_, ?_, ?_, ?_⟩ <;> decide, by decide⟩,
    C4_taskline_grammar.2.2 emptySettings (str ("f")) (str ("x [ ] nope")) [] 0 [] []
      (by decide)⟩

/-! ## C8: duplicate detection -/

/-- The group a key owns in the `textMap` (empty when the key is absent). -/
def groupOf (m : List (Str × List TodoItem)) (k : Str) : List TodoItem :=
  match m.find? (fun e => e.1 == k) with
  | some e => e.2
  | none => []

/-- The keys of a `textMap`. -/
def gKeys (m : List (Str × List TodoItem)) : List Str := m.map (fun e => e.1)

theorem groupOf_groupInsert (k1 : Str) (t : TodoItem) (k : Str) :
    (m : List (Str × List TodoItem)) →
      groupOf (groupInsert m k1 t) k
        = if k1 = k then groupOf m k ++ [t] else groupOf m k
  | [] => by
    by_cases hk : k1 = k
    · subst hk
      simp [groupInsert, groupOf, List.find?]
    · rw [if_neg hk]
      have hne : (k1 == k) = false := by
        cases hb : (k1 == k) with
        | false => rfl
        | true => exact absurd (eq_of_beq hb) hk
      simp [groupInsert, groupOf, List.find?, hne]
  | e :: r => by
    by_cases he : (e.1 == k1) = true
    · have he1 : e.1 = k1 := eq_of_beq he
      unfold groupInsert
      rw [if_pos he]
      unfold groupOf
      rw [List.find?_cons, List.find?_cons]
      by_cases hk : k1 = k
      · have hek : (e.1 == k) = true := by
          rw [he1, hk]
          exact beq_self_eq_true k
        simp only [hek]
        rw [if_pos hk]
      · have hek : (e.1 == k) = false := by
          cases hb : (e.1 == k) with
          | false => rfl
          | true => exact absurd (he1.symm.trans (eq_of_beq hb)) hk
        simp only [hek]
        rw [if_neg hk]
    · unfold groupInsert
      rw [if_neg he]
      unfold groupOf
      rw [List.find?_cons, List.find?_cons]
      by_cases hek : (e.1 == k) = true
      · have hk : k1 ≠ k := by
          intro hc
          exact he (by rw [hc]; exact hek)
        simp only [hek]
        rw [if_neg hk]
      · have he2 : (e.1 == k) = false := by
          cases hb : (e.1 == k) with
          | false => rfl
          | true => exact absurd hb hek
        simp only [he2]
        exact groupOf_groupInsert k1 t k r

theorem gKeys_groupInsert (k1 : Str) (t : TodoItem) :
    (m : List (Str × List TodoItem)) →
      gKeys (groupInsert m k1 t)
        = if k1 ∈ gKeys m then gKeys m else gKeys m ++ [k1]
  | [] => by simp [groupInsert, gKeys]
  | e :: r => by
    by_cases he : (e.1 == k1) = true
    · have he1 : e.1 = k1 := eq_of_beq he
      unfold groupInsert
      rw [if_pos he]
      have hmem : k1 ∈ gKeys (e :: r) := by
        rw [show gKeys (e :: r) = e.1 :: gKeys r from rfl, he1]
        exact List.mem_cons_self k1 (gKeys r)
      rw [if_pos hmem]
      rfl
    · have hne : e.1 ≠ k1 := fun hc => he (by rw [hc]; exact beq_self_eq_true k1)
      unfold groupInsert
      rw [if_neg he]
      have ih := gKeys_groupInsert k1 t r
      rw [show gKeys (e :: groupInsert r k1 t) = e.1 :: gKeys (groupInsert r k1 t) from rfl,
        ih, show gKeys (e :: r) = e.1 :: gKeys r from rfl]
      by_cases hm : k1 ∈ gKeys r
      · rw [if_pos hm, if_pos (List.mem_cons_of_mem e.1 hm)]
      · rw [if_neg hm, if_neg (by
          intro hc
          rcases List.mem_cons.mp hc with hc | hc
          · exact hne hc.symm
          · exact hm hc)]
        rfl

/-- The `textMap` invariant carried through the fold of `findDuplicates`:
keys are duplicate-free and each key holds exactly the processed entities
with that normalized text, in order. -/
theorem buildInv :
    (rest : List (Str × TodoItem)) → (m : List (Str × List TodoItem)) →
    (P : List TodoItem) → (gKeys m).Nodup →
    (∀ k, groupOf m k = P.filter (fun t => normalizeText t.text == k)) →
    (gKeys (rest.foldl (fun m e => groupInsert m (normalizeText e.2.text) e.2) m)).Nodup ∧
    (∀ k, groupOf (rest.foldl (fun m e => groupInsert m (normalizeText e.2.text) e.2) m) k
      = (P ++ mapValues rest).filter (fun t => normalizeText t.text == k))
  | [], m, P, hnd, hg => by
    constructor
    · exact hnd
    · intro k
      rw [show mapValues [] = [] from rfl, List.append_nil]
      exact hg k
  | e :: rest, m, P, hnd, hg => by
    have hnd1 : (gKeys (groupInsert m (normalizeText e.2.text) e.2)).Nodup := by
      rw [gKeys_groupInsert]
      by_cases hm : normalizeText e.2.text ∈ gKeys m
      · rw [if_pos hm]; exact hnd
      · rw [if_neg hm]
        rw [List.nodup_append]
        exact ⟨hnd, List.nodup_singleton _, by
          intro a ha hb
          rw [List.mem_singleton] at hb
          subst hb
          exact hm ha⟩
    have hg1 : ∀ k, groupOf (groupInsert m (normalizeText e.2.text) e.2) k
        = (P ++ [e.2]).filter (fun t => normalizeText t.text == k) := by
      intro k
      rw [groupOf_groupInsert, List.filter_append, hg k]
      by_cases hk : normalizeText e.2.text = k
      · rw [if_pos hk]
        congr 1
        simp [List.filter, hk]
      · rw [if_neg hk]
        have : (normalizeText e.2.text == k) = false := by
          cases hb : (normalizeText e.2.text == k) with
          | false => rfl
          | true => exact absurd (eq_of_beq hb) hk
        simp [List.filter, this]
    have ih := buildInv rest (groupInsert m (normalizeText e.2.text) e.2) (P ++ [e.2])
      hnd1 hg1
    constructor
    · exact ih.1
    · intro k
      rw [show (e :: rest).foldl (fun m e => groupInsert m (normalizeText e.2.text) e.2) m
          = rest.foldl (fun m e => groupInsert m (normalizeText e.2.text) e.2)
              (groupInsert m (normalizeText e.2.text) e.2) from rfl]
      rw [ih.2 k]
      congr 1
      rw [show mapValues (e :: rest) = e.2 :: mapValues rest from rfl]
      rw [List.append_assoc]
      rfl

theorem buildTextMap_keys_nodup (todos : List (Str × TodoItem)) :
    (gKeys (buildTextMap todos)).Nodup :=
  (buildInv todos [] [] (List.nodup_nil) (fun _ => rfl)).1

theorem buildTextMap_groupOf (todos : List (Str × TodoItem)) (k : Str) :
    groupOf (buildTextMap todos) k
      = (mapValues todos).filter (fun t => normalizeText t.text == k) := by
  have h := (buildInv todos [] [] (List.nodup_nil) (fun k => rfl)).2 k
  rw [List.nil_append] at h
  exact h

/-- With duplicate-free keys, a map entry is determined by its key. -/
theorem entry_eq_groupOf (k : Str) (g : List TodoItem) :
    (m : List (Str × List TodoItem)) → (gKeys m).Nodup → (k, g) ∈ m →
      groupOf m k = g
  | [], _, hm => by cases hm
  | e :: r, hnd, hm => by
    have hndr : (gKeys r).Nodup ∧ e.1 ∉ gKeys r := by
      rw [show gKeys (e :: r) = e.1 :: gKeys r from rfl] at hnd
      exact ⟨(List.nodup_cons.mp hnd).2, (List.nodup_cons.mp hnd).1⟩
    rcases List.mem_cons.mp hm with hm | hm
    · rw [← hm]
      unfold groupOf
      rw [List.find?_cons]
      simp [beq_self_eq_true]
    · have hkr : k ∈ gKeys r := by
        unfold gKeys
        exact List.mem_map.mpr ⟨(k, g), hm, rfl⟩
      have hne : (e.1 == k) = false := by
        cases hb : (e.1 == k) with
        | false => rfl
        | true => exact absurd (eq_of_beq hb ▸ hkr) hndr.2
      unfold groupOf
      rw [List.find?_cons]
      simp only [hne]
      exact entry_eq_groupOf k g r hndr.1 hm

/-- A key owning a nonempty group is present as an entry. -/
theorem groupOf_mem (m : List (Str × List TodoItem)) (k : Str)
    (h : groupOf m k ≠ []) : (k, groupOf m k) ∈ m := by
  unfold groupOf at h ⊢
  cases hf : m.find? (fun e => e.1 == k) with
  | none =>
    rw [hf] at h
    exact absurd rfl h
  | some e =>
    show (k, e.2) ∈ m
    have he : e ∈ m := List.mem_of_find?_eq_some hf
    have hp := List.find?_some hf
    have hk : e.1 = k := eq_of_beq (by simpa using hp)
    rw [show ((k, e.2) : Str × List TodoItem) = e from by rw [← hk]]
    exact he

/-- Two distinct members force length at least two. -/
theorem two_le_length_of_mem_ne (t u : TodoItem) :
    (l : List TodoItem) → t ∈ l → u ∈ l → t ≠ u → 2 ≤ l.length
  | [], ht, _, _ => by cases ht
  | a :: r, ht, hu, hne => by
    rcases List.mem_cons.mp ht with rfl | ht2
    · rcases List.mem_cons.mp hu with rfl | hu2
      · exact absurd rfl hne
      · have := List.length_pos.mpr (List.ne_nil_of_mem hu2)
        rw [List.length_cons]
        omega
    · have := List.length_pos.mpr (List.ne_nil_of_mem ht2)
      rw [List.length_cons]
      omega

/-- Membership in `findDuplicates` unpacked. -/
theorem mem_findDuplicates (st : TodoEngineState) (k : Str) (g : List TodoItem) :
    (k, g) ∈ findDuplicates st ↔ ((k, g) ∈ buildTextMap st.todos ∧ 1 < g.length) := by
  unfold findDuplicates
  rw [List.mem_filter]
  constructor
  · rintro ⟨h1, h2⟩
    exact ⟨h1, by simpa using h2⟩
  · rintro ⟨h1, h2⟩
    exact ⟨h1, by simpa using h2⟩

/-- C8: `findDuplicates` groups all entities — ignoring the display
filters — by trimmed, lower-cased text and returns exactly the groups
with at least two members: every returned group has length at least 2 and
holds only entities of that normalized text; two distinct entities with
the same normalized text appear together in exactly one returned group;
an entity whose normalized text occurs exactly once appears in no group. -/
theorem C8_find_duplicates :
    (∀ (st : TodoEngineState) (k : Str) (g : List TodoItem),
      (k, g) ∈ findDuplicates st →
        2 ≤ g.length ∧ ∀ u ∈ g, normalizeText u.text = k ∧ u ∈ mapValues st.todos) ∧
    (∀ (st : TodoEngineState) (t u : TodoItem),
      t ∈ mapValues st.todos → u ∈ mapValues st.todos →
      normalizeText t.text = normalizeText u.text → t ≠ u →
      ∃ g, (normalizeText t.text, g) ∈ findDuplicates st ∧ t ∈ g ∧ u ∈ g ∧
        ∀ k2 g2, (k2, g2) ∈ findDuplicates st → t ∈ g2 →
          k2 = normalizeText t.text ∧ g2 = g) ∧
    (∀ (st : TodoEngineState) (t : TodoItem),
      t ∈ mapValues st.todos →
      (mapValues st.todos).countP
          (fun u => normalizeText u.text == normalizeText t.text) = 1 →
      ∀ k g, (k, g) ∈ findDuplicates st → t ∉ g) := by
  refine ⟨?_, ?_, ?_⟩
  · intro st k g hm
    obtain ⟨hb, hlen⟩ := (mem_findDuplicates st k g).mp hm
    have hg : g = (mapValues st.todos).filter (fun t => normalizeText t.text == k) := by
      rw [← entry_eq_groupOf k g (buildTextMap st.todos) (buildTextMap_keys_nodup _) hb]
      exact buildTextMap_groupOf st.todos k
    refine ⟨by omega, ?_⟩
    intro u hu
    rw [hg] at hu
    have := List.mem_filter.mp hu
    exact ⟨eq_of_beq this.2, this.1⟩
  · intro st t u ht hu hnorm hne
    set k0 := normalizeText t.text with hk0
    have hgrp := buildTextMap_groupOf st.todos k0
    have htg : t ∈ groupOf (buildTextMap st.todos) k0 := by
      rw [hgrp]
      exact List.mem_filter.mpr ⟨ht, beq_self_eq_true k0⟩
    have hug : u ∈ groupOf (buildTextMap st.todos) k0 := by
      rw [hgrp]
      refine List.mem_filter.mpr ⟨hu, ?_⟩
      rw [← hnorm]
      exact beq_self_eq_true k0
    have hnonempty : groupOf (buildTextMap st.todos) k0 ≠ [] :=
      List.ne_nil_of_mem htg
    have hentry := groupOf_mem (buildTextMap st.todos) k0 hnonempty
    have hlen := two_le_length_of_mem_ne t u _ htg hug hne
    refine ⟨groupOf (buildTextMap st.todos) k0,
      (mem_findDuplicates st k0 _).mpr ⟨hentry, by omega⟩, htg, hug, ?_⟩
    intro k2 g2 hm2 htg2
    obtain ⟨hb2, -⟩ := (mem_findDuplicates st k2 g2).mp hm2
    have hg2 : g2 = (mapValues st.todos).filter (fun v => normalizeText v.text == k2) := by
      rw [← entry_eq_groupOf k2 g2 (buildTextMap st.todos) (buildTextMap_keys_nodup _) hb2]
      exact buildTextMap_groupOf st.todos k2
    have hk2 : k2 = k0 := by
      rw [hg2] at htg2
      have := (List.mem_filter.mp htg2).2
      rw [hk0]
      exact (eq_of_beq this).symm
    subst hk2
    refine ⟨rfl, ?_⟩
    rw [hg2, hgrp]
  · intro st t ht hcount k g hm htg
    obtain ⟨hb, hlen⟩ := (mem_findDuplicates st k g).mp hm
    have hg : g = (mapValues st.todos).filter (fun v => normalizeText v.text == k) := by
      rw [← entry_eq_groupOf k g (buildTextMap st.todos) (buildTextMap_keys_nodup _) hb]
      exact buildTextMap_groupOf st.todos k
    have hk : k = normalizeText t.text := by
      rw [hg] at htg
      exact (eq_of_beq (List.mem_filter.mp htg).2).symm
    rw [List.countP_eq_length_filter] at hcount
    rw [hg, hk] at hlen
    rw [hcount] at hlen
    omega

/-- C8 witness: two duplicate entities and one unique entity. -/
def dupTodoA : TodoItem :=
  { id := str ("a:1"), text := str ("Buy milk"), filePath := str ("a"), lineNumber := 1,
    completed := false, priority := MAX_SAFE_INTEGER, rawLine := str ("- [ ] Buy milk"),
    pinned := false, indentLevel := 0, parentId := none, dueDate := none, tags := [] }

def dupTodoB : TodoItem :=
  { id := str ("b:1"), text := str ("  buy MILK "), filePath := str ("b"), lineNumber := 1,
    completed := false, priority := MAX_SAFE_INTEGER, rawLine := str ("- [ ] buy MILK"),
    pinned := false, indentLevel := 0, parentId := none, dueDate := none, tags := [] }

def dupTodoC : TodoItem :=
  { id := str ("c:1"), text := str ("Walk dog"), filePath := str ("c"), lineNumber := 1,
    completed := false, priority := MAX_SAFE_INTEGER, rawLine := str ("- [ ] Walk dog"),
    pinned := false, indentLevel := 0, parentId := none, dueDate := none, tags := [] }

def dupState : TodoEngineState :=
  { todos := [(str ("a:1"), dupTodoA), (str ("b:1"), dupTodoB), (str ("c:1"), dupTodoC)]
    settings := emptySettings }

theorem C8_find_duplicates_witness :
    (∃ g, (normalizeText dupTodoA.text, g) ∈ findDuplicates dupState ∧
      dupTodoA ∈ g ∧ dupTodoB ∈ g ∧
      ∀ k2 g2, (k2, g2) ∈ findDuplicates dupState → dupTodoA ∈ g2 →
        k2 = normalizeText dupTodoA.text ∧ g2 = g) ∧
    (∀ k g, (k, g) ∈ findDuplicates dupState → dupTodoC ∉ g) :=
  ⟨C8_find_duplicates.2.1 dupState dupTodoA dupTodoB
      (by decide) (by decide) (by decide) (by decide),
    C8_find_duplicates.2.2 dupState dupTodoC (by decide) (by decide)⟩

/-! ## C3: rescan atomicity — decimal rendering facts -/

/-- Decimal value of a digit string. -/
def decVal (l : Str) : Nat := l.foldl (fun a c => a * 10 + (c.toNat - 48)) 0

theorem natToDecimalGo_fuel (n : Nat) :
    ∀ fuel acc, n < fuel → natToDecimalGo fuel n acc = natToDecimal n ++ acc := by
  induction n using Nat.strong_induction_on with
  | _ n ih =>
    intro fuel acc hfuel
    match fuel with
    | 0 => omega
    | f + 1 =>
      by_cases h10 : n < 10
      · unfold natToDecimalGo
        rw [if_pos h10]
        unfold natToDecimal natToDecimalGo
        rw [if_pos h10]
        rfl
      · have hdiv : n / 10 < n := Nat.div_lt_self (by omega) (by omega)
        unfold natToDecimalGo
        rw [if_neg h10]
        rw [ih (n / 10) hdiv f _ (by omega)]
        have hn : natToDecimal n
            = natToDecimal (n / 10) ++ [digitChar (n % 10)] := by
          unfold natToDecimal
          conv_lhs => rw [natToDecimalGo]
          rw [if_neg h10]
          rw [ih (n / 10) hdiv n _ (by omega)]
          rfl
        rw [hn, List.append_assoc]
        rfl

theorem natToDecimal_cons_digit (n : Nat) (h10 : ¬ n < 10) :
    natToDecimal n = natToDecimal (n / 10) ++ [digitChar (n % 10)] := by
  unfold natToDecimal
  conv_lhs => rw [natToDecimalGo]
  rw [if_neg h10]
  exact natToDecimalGo_fuel (n / 10) n _ (by
    have := Nat.div_lt_self (show 0 < n by omega) (show 1 < 10 by omega)
    omega)

theorem decVal_natToDecimal (n : Nat) : decVal (natToDecimal n) = n := by
  induction n using Nat.strong_induction_on with
  | _ n ih =>
    by_cases h10 : n < 10
    · interval_cases n <;> rfl
    · have hdiv : n / 10 < n := Nat.div_lt_self (by omega) (by omega)
      rw [natToDecimal_cons_digit n h10]
      unfold decVal
      rw [List.foldl_append]
      unfold decVal at ih
      rw [ih (n / 10) hdiv]
      show (n / 10) * 10 + ((digitChar (n % 10)).toNat - 48) = n
      have hm : n % 10 < 10 := Nat.mod_lt n (by omega)
      have hd : (digitChar (n % 10)).toNat - 48 = n % 10 := by
        set m := n % 10 with hmdef
        interval_cases m <;> rfl
      rw [hd]
      omega

theorem natToDecimal_inj (n m : Nat) (h : natToDecimal n = natToDecimal m) : n = m := by
  have := congrArg decVal h
  rwa [decVal_natToDecimal, decVal_natToDecimal] at this

theorem digitChar_ne_colon (k : Nat) : digitChar k ≠ ':' := by
  unfold digitChar
  split <;> decide

theorem colon_not_mem_natToDecimalGo (fuelv : Nat) :
    ∀ n acc, ':' ∈ natToDecimalGo fuelv n acc → ':' ∈ acc := by
  induction fuelv with
  | zero => intro n acc h; exact h
  | succ f ihf =>
    intro n acc h
    unfold natToDecimalGo at h
    by_cases h10 : n < 10
    · rw [if_pos h10] at h
      rcases List.mem_cons.mp h with h | h
      · exact absurd h.symm (digitChar_ne_colon n)
      · exact h
    · rw [if_neg h10] at h
      have := ihf (n / 10) (digitChar (n % 10) :: acc) h
      rcases List.mem_cons.mp this with h2 | h2
      · exact absurd h2.symm (digitChar_ne_colon (n % 10))
      · exact h2

theorem colon_not_mem_natToDecimal (n : Nat) : ':' ∉ natToDecimal n := by
  intro h
  have := colon_not_mem_natToDecimalGo (n + 1) n [] h
  cases this

/-- The id rendering `path:line` determines both components. -/
theorem idFor_inj : ∀ (p q : Str) (n m : Nat), idFor p n = idFor q m → p = q ∧ n = m
  | [], [], n, m, h => by
    refine ⟨rfl, ?_⟩
    unfold idFor generateId at h
    rw [List.nil_append, List.nil_append] at h
    injection h with h1 h2
    exact natToDecimal_inj n m h2
  | [], c :: q, n, m, h => by
    unfold idFor generateId at h
    rw [List.nil_append, List.cons_append] at h
    injection h with h1 h2
    subst h1
    have : ':' ∈ natToDecimal n := by
      rw [h2]
      exact List.mem_append.mpr (Or.inr (List.mem_cons_self ':' _))
    exact absurd this (colon_not_mem_natToDecimal n)
  | c :: p, [], n, m, h => by
    unfold idFor generateId at h
    rw [List.nil_append, List.cons_append] at h
    injection h with h1 h2
    subst h1
    have : ':' ∈ natToDecimal m := by
      rw [← h2]
      exact List.mem_append.mpr (Or.inr (List.mem_cons_self ':' _))
    exact absurd this (colon_not_mem_natToDecimal m)
  | c :: p, d :: q, n, m, h => by
    unfold idFor generateId at h
    rw [List.cons_append, List.cons_append] at h
    injection h with h1 h2
    obtain ⟨hpq, hnm⟩ := idFor_inj p q n m h2
    exact ⟨by rw [h1, hpq], hnm⟩

/-! ## C3: rescan atomicity — map and scan-loop structure -/

/-- Keys of the entity map. -/
def aKeys (m : List (Str × TodoItem)) : List Str := m.map (fun e => e.1)

theorem aKeys_alistSet (k : Str) (v : TodoItem) :
    (m : List (Str × TodoItem)) →
      aKeys (alistSet m k v) = if k ∈ aKeys m then aKeys m else aKeys m ++ [k]
  | [] => by simp [alistSet, aKeys]
  | e :: r => by
    by_cases he : (e.1 == k) = true
    · have he1 : e.1 = k := eq_of_beq he
      unfold alistSet
      rw [if_pos he]
      have hmem : k ∈ aKeys (e :: r) := by
        rw [show aKeys (e :: r) = e.1 :: aKeys r from rfl, he1]
        exact List.mem_cons_self k (aKeys r)
      rw [if_pos hmem]
      rw [show aKeys ((k, v) :: r) = k :: aKeys r from rfl,
        show aKeys (e :: r) = e.1 :: aKeys r from rfl, he1]
    · have hne : e.1 ≠ k := fun hc => he (by rw [hc]; exact beq_self_eq_true k)
      unfold alistSet
      rw [if_neg he]
      have ih := aKeys_alistSet k v r
      rw [show aKeys (e :: alistSet r k v) = e.1 :: aKeys (alistSet r k v) from rfl,
        ih, show aKeys (e :: r) = e.1 :: aKeys r from rfl]
      by_cases hm : k ∈ aKeys r
      · rw [if_pos hm, if_pos (List.mem_cons_of_mem e.1 hm)]
      · rw [if_neg hm, if_neg (by
          intro hc
          rcases List.mem_cons.mp hc with hc | hc
          · exact hne hc.symm
          · exact hm hc)]
        rfl

theorem aKeys_alistSet_nodup (k : Str) (v : TodoItem) (m : List (Str × TodoItem))
    (hnd : (aKeys m).Nodup) : (aKeys (alistSet m k v)).Nodup := by
  rw [aKeys_alistSet]
  by_cases hm : k ∈ aKeys m
  · rw [if_pos hm]; exact hnd
  · rw [if_neg hm]
    rw [List.nodup_append]
    exact ⟨hnd, List.nodup_singleton _, by
      intro a ha hb
      rw [List.mem_singleton] at hb
      subst hb
      exact hm ha⟩

theorem mem_alistSet_entries (k : Str) (v : TodoItem) (e : Str × TodoItem) :
    (m : List (Str × TodoItem)) → e ∈ alistSet m k v → e ∈ m ∨ e = (k, v)
  | [], h => by
    rw [show alistSet [] k v = [(k, v)] from rfl] at h
    exact Or.inr (List.mem_singleton.mp h)
  | e1 :: r, h => by
    unfold alistSet at h
    by_cases he : (e1.1 == k) = true
    · rw [if_pos he] at h
      rcases List.mem_cons.mp h with h | h
      · exact Or.inr h
      · exact Or.inl (List.mem_cons_of_mem e1 h)
    · rw [if_neg he] at h
      rcases List.mem_cons.mp h with h | h
      · exact Or.inl (h ▸ List.mem_cons_self e1 r)
      · rcases mem_alistSet_entries k v e r h with h2 | h2
        · exact Or.inl (List.mem_cons_of_mem e1 h2)
        · exact Or.inr h2

theorem alistSet_append_left (k : Str) (v : TodoItem) (l2 : List (Str × TodoItem)) :
    (l1 : List (Str × TodoItem)) → k ∉ aKeys l1 →
      alistSet (l1 ++ l2) k v = l1 ++ alistSet l2 k v
  | [], _ => rfl
  | e :: r, h => by
    have hne : e.1 ≠ k := fun hc => h (by
      rw [show aKeys (e :: r) = e.1 :: aKeys r from rfl, hc]
      exact List.mem_cons_self k (aKeys r))
    have hbe : (e.1 == k) = false := by
      cases hb : (e.1 == k) with
      | false => rfl
      | true => exact absurd (eq_of_beq hb) hne
    show (if (e.1 == k) = true then (k, v) :: (r ++ l2) else e :: alistSet (r ++ l2) k v)
        = e :: (r ++ alistSet l2 k v)
    rw [hbe]
    simp only [Bool.false_eq_true, if_false]
    rw [alistSet_append_left k v l2 r (fun hc => h (List.mem_cons_of_mem e.1 hc))]

/-- The scan loop never rewrites entries of other documents: with all new
keys fresh for the prefix, it appends behind it. -/
theorem scanFileGo_append (s : TodoEngineSettings) (p : Str)
    (others : List (Str × TodoItem)) (h : ∀ n, idFor p n ∉ aKeys others) :
    ∀ lines i stk acc,
      scanFileGo s p lines i stk (others ++ acc)
        = others ++ scanFileGo s p lines i stk acc
  | [], _, _, _ => rfl
  | line :: rest, i, stk, acc => by
    cases hp : parseTodoLine line with
    | none =>
      conv_lhs => rw [scanFileGo]
      conv_rhs => rw [scanFileGo]
      simp only [hp]
      exact scanFileGo_append s p others h rest (i + 1) stk acc
    | some v =>
      obtain ⟨indent, completed, rawText⟩ := v
      conv_lhs => rw [scanFileGo]
      conv_rhs => rw [scanFileGo]
      simp only [hp]
      have hfresh : generateId p (i + 1) (trimStr rawText) ∉ aKeys others := h (i + 1)
      rw [alistSet_append_left _ _ _ others hfresh]
      exact scanFileGo_append s p others h rest (i + 1) _ _

/-- Every entry the scan loop adds is keyed by its entity's id, carries the
scanned path, and has the id computed from (path, line). -/
theorem scanFileGo_entries (s : TodoEngineSettings) (p : Str) :
    ∀ lines i stk acc (e : Str × TodoItem),
      e ∈ scanFileGo s p lines i stk acc →
      e ∈ acc ∨ (e.1 = e.2.id ∧ e.2.filePath = p ∧
        e.2.id = idFor p e.2.lineNumber ∧ 1 ≤ e.2.lineNumber)
  | [], _, _, _, _, h => Or.inl h
  | line :: rest, i, stk, acc, e, h => by
    rw [scanFileGo] at h
    cases hp : parseTodoLine line with
    | none =>
      rw [hp] at h
      exact scanFileGo_entries s p rest (i + 1) stk acc e h
    | some v =>
      rw [hp] at h
      obtain ⟨indent, completed, rawText⟩ := v
      rcases scanFileGo_entries s p rest (i + 1) _ _ e h with h2 | h2
      · rcases mem_alistSet_entries _ _ e acc h2 with h3 | h3
        · exact Or.inl h3
        · subst h3
          exact Or.inr ⟨rfl, rfl, rfl, Nat.le_add_left 1 i⟩
      · exact Or.inr h2

theorem scanFileGo_keys_nodup (s : TodoEngineSettings) (p : Str) :
    ∀ lines i stk acc, (aKeys acc).Nodup →
      (aKeys (scanFileGo s p lines i stk acc)).Nodup
  | [], _, _, _, hnd => hnd
  | line :: rest, i, stk, acc, hnd => by
    rw [scanFileGo]
    cases hp : parseTodoLine line with
    | none => exact scanFileGo_keys_nodup s p rest (i + 1) stk acc hnd
    | some v =>
      obtain ⟨indent, completed, rawText⟩ := v
      exact scanFileGo_keys_nodup s p rest (i + 1) _ _
        (aKeys_alistSet_nodup _ _ acc hnd)

/-- Well-formedness of a registry state: no two entities share an id (keys
are duplicate-free) and every entry is keyed by its entity's id, which is
the `path:line` rendering. Holds for every state the engine builds. -/
def WFRegistry (st : TodoEngineState) : Prop :=
  (aKeys st.todos).Nodup ∧
  ∀ e ∈ st.todos, e.1 = e.2.id ∧ e.2.id = idFor e.2.filePath e.2.lineNumber

instance (st : TodoEngineState) : Decidable (WFRegistry st) := by
  unfold WFRegistry
  exact instDecidableAnd

/-- Under well-formedness, no key of another document's entity can be a
`path:line` id of the rescanned document. -/
theorem fresh_keys (st : TodoEngineState) (p : Str) (hwf : WFRegistry st) :
    ∀ n, idFor p n ∉ aKeys (st.todos.filter (fun e => !(e.2.filePath == p))) := by
  intro n hk
  obtain ⟨e, he, hek⟩ := List.mem_map.mp hk
  have hmem := List.mem_filter.mp he
  have hwfe := hwf.2 e hmem.1
  have hfp : ¬ e.2.filePath = p := by
    intro hc
    have := hmem.2
    rw [hc] at this
    simp at this
  have : idFor p n = idFor e.2.filePath e.2.lineNumber := by
    rw [← hwfe.2, ← hwfe.1, hek]
  exact hfp ((idFor_inj p e.2.filePath n e.2.lineNumber this).1.symm)

theorem scanFile_decompose (st : TodoEngineState) (p : Str) (c : Str)
    (hwf : WFRegistry st) :
    (scanFile st p c).todos
      = st.todos.filter (fun e => !(e.2.filePath == p))
        ++ scanFileGo st.settings p (splitOnNl c) 0 [] [] := by
  have hfresh := fresh_keys st p hwf
  unfold scanFile removeTodosFromFile
  show scanFileGo st.settings p (splitOnNl c) 0 []
      (st.todos.filter (fun e => !(e.2.filePath == p))) = _
  conv_lhs => rw [show st.todos.filter (fun e => !(e.2.filePath == p))
    = st.todos.filter (fun e => !(e.2.filePath == p)) ++ [] from (List.append_nil _).symm]
  exact scanFileGo_append st.settings p _ hfresh (splitOnNl c) 0 [] []

/-- C3: rescanning a document fully replaces that document's entities.
After `scanFile st p c`: the entities with `filePath = p` are exactly
those parsed from the new content, in parse order, so no stale entity for
`p` survives; entities of every other path are unchanged; the registry
stays well-formed, in particular it never holds two entities with the
same id; a task that stays on its line keeps its id; and a task on a line
that held no task before gets an id the registry did not contain. -/
theorem C3_rescan_atomicity (st : TodoEngineState) (p : Str) (c : Str)
    (hwf : WFRegistry st) :
    (mapValues (scanFile st p c).todos).filter (fun t => t.filePath == p)
        = parseTasks st.settings p c ∧
    (scanFile st p c).todos.filter (fun e => !(e.2.filePath == p))
        = st.todos.filter (fun e => !(e.2.filePath == p)) ∧
    WFRegistry (scanFile st p c) ∧
    (∀ t1 ∈ mapValues st.todos, ∀ t2 ∈ mapValues (scanFile st p c).todos,
      t1.filePath = p → t2.filePath = p → t1.lineNumber = t2.lineNumber →
      t2.id = t1.id) ∧
    (∀ t2 ∈ mapValues (scanFile st p c).todos, t2.filePath = p →
      (∀ t1 ∈ mapValues st.todos, ¬(t1.filePath = p ∧ t1.lineNumber = t2.lineNumber)) →
      t2.id ∉ aKeys st.todos) := by
  have hdec := scanFile_decompose st p c hwf
  have hnews := scanFileGo_entries st.settings p (splitOnNl c) 0 [] []
  refine ⟨?_, ?_, ?_, ?_, ?_⟩
  · rw [hdec]
    unfold mapValues parseTasks
    rw [List.map_append, List.filter_append]
    have hothers : ((st.todos.filter (fun e => !(e.2.filePath == p))).map
        (fun e => e.2)).filter (fun t => t.filePath == p) = [] := by
      rw [List.filter_eq_nil_iff]
      intro t htm
      obtain ⟨e, he, rfl⟩ := List.mem_map.mp htm
      have h2 := (List.mem_filter.mp he).2
      intro hc
      rw [hc] at h2
      cases h2
    have hnew : ((scanFileGo st.settings p (splitOnNl c) 0 [] []).map
        (fun e => e.2)).filter (fun t => t.filePath == p)
        = (scanFileGo st.settings p (splitOnNl c) 0 [] []).map (fun e => e.2) := by
      rw [List.filter_eq_self]
      intro t htm
      obtain ⟨e, he, rfl⟩ := List.mem_map.mp htm
      rcases hnews e he with h2 | h2
      · cases h2
      · rw [h2.2.1]
        exact beq_self_eq_true p
    rw [hothers, hnew, List.nil_append]
    rfl
  · rw [hdec, List.filter_append]
    have hothers : (st.todos.filter (fun e => !(e.2.filePath == p))).filter
        (fun e => !(e.2.filePath == p))
        = st.todos.filter (fun e => !(e.2.filePath == p)) := by
      rw [List.filter_eq_self]
      intro e he
      exact (List.mem_filter.mp he).2
    have hnew : (scanFileGo st.settings p (splitOnNl c) 0 [] []).filter
        (fun e => !(e.2.filePath == p)) = [] := by
      rw [List.filter_eq_nil_iff]
      intro e he
      rcases hnews e he with h2 | h2
      · cases h2
      · rw [h2.2.1]
        simp
    rw [hothers, hnew, List.append_nil]
  · constructor
    · rw [hdec]
      unfold aKeys
      rw [List.map_append]
      rw [List.nodup_append]
      refine ⟨?_, ?_, ?_⟩
      · have hnd0 : (List.map (fun e => e.1) st.todos).Nodup := hwf.1
        exact ((List.filter_sublist st.todos).map (fun e => e.1)).nodup hnd0
      · exact scanFileGo_keys_nodup st.settings p (splitOnNl c) 0 [] [] List.nodup_nil
      · intro a ha hb
        obtain ⟨e, he, rfl⟩ := List.mem_map.mp hb
        rcases hnews e he with h2 | h2
        · cases h2
        · have hida : e.1 = idFor p e.2.lineNumber := by
            rw [h2.1, h2.2.2.1]
          rw [hida] at ha
          exact fresh_keys st p hwf e.2.lineNumber ha
    · intro e he
      rw [hdec] at he
      rcases List.mem_append.mp he with h2 | h2
      · exact hwf.2 e (List.mem_filter.mp h2).1
      · rcases hnews e h2 with h3 | h3
        · cases h3
        · exact ⟨h3.1, by rw [h3.2.2.1, h3.2.1]⟩
  · intro t1 ht1 t2 ht2 hfp1 hfp2 hline
    obtain ⟨e1, he1, heq1⟩ := List.mem_map.mp ht1
    subst heq1
    have hid1 : e1.2.id = idFor e1.2.filePath e1.2.lineNumber := (hwf.2 e1 he1).2
    have hid2 : t2.id = idFor p t2.lineNumber := scanFile_id_shape st p c t2 ht2 hfp2
    rw [hid2, hid1, hfp1, hline]
  · intro t2 ht2 hfp2 hnone hkmem
    have hid2 : t2.id = idFor p t2.lineNumber := scanFile_id_shape st p c t2 ht2 hfp2
    obtain ⟨e, he, hek⟩ := List.mem_map.mp hkmem
    have hwfe := hwf.2 e he
    have heq : idFor p t2.lineNumber = idFor e.2.filePath e.2.lineNumber := by
      rw [← hid2, ← hek, hwfe.1, hwfe.2]
    obtain ⟨hp, hl⟩ := idFor_inj p e.2.filePath t2.lineNumber e.2.lineNumber heq
    exact hnone e.2 (List.mem_map.mpr ⟨e, he, rfl⟩) ⟨hp.symm, hl.symm⟩

/-- C3 witness: a registry holding tasks A, B, C of document `w`,
rescanned with content holding only an edited A and a new D. -/
def rescanState0 : TodoEngineState :=
  scanFile emptyEngineState (str ("w")) (str ("- [ ] A\n- [ ] B\n- [ ] C"))

theorem C3_rescan_atomicity_witness :
    (mapValues (scanFile rescanState0 (str ("w")) (str ("- [ ] A2\n- [ ] D"))).todos).filter
        (fun t => t.filePath == str ("w"))
      = parseTasks rescanState0.settings (str ("w")) (str ("- [ ] A2\n- [ ] D")) :=
  (C3_rescan_atomicity rescanState0 (str ("w")) (str ("- [ ] A2\n- [ ] D"))
    (by decide)).1

/-! ## C1: column membership purity for rule columns -/

/-- C1: in the column-type-aware board engine (membership modelled from
the spec, dates from the DateUtils source), a task whose due date is the
day before today and that is not archived on the board is a member of
every `overdue` column — and appears in `getTodosForColumn` for it —
regardless of any manual assignment stored for that task on the board;
for a `manual` column, the same task is a member exactly when its stored
assignment equals that column's id, or it has no stored assignment and
the column is the board's first column. -/
theorem C1_overdue_ignores_assignment (today : Int) (y : Str) (b : TypedBoard)
    (col : TypedColumn) (todo : TodoItem) (allTodos : List TodoItem)
    (hcol : b.columns.find? (fun c => c.id == col.id) = some col)
    (htype : col.type = ColumnType.overdue)
    (hfil : col.filterConfig = none)
    (hdue : todo.dueDate = some y)
    (hy : dateToDayNumber y = some (today - 1))
    (harch : todo.id ∉ b.archivedTodoIds)
    (hmem : todo ∈ allTodos) :
    todo ∈ getTodosForColumn today allTodos b col.id ∧
    columnMembership today b col todo = true ∧
    (∀ colM : TypedColumn, colM.type = ColumnType.manual →
      (columnMembership today b colM todo = true ↔
        (recLookup b.todoAssignments todo.id = some colM.id ∨
          (recLookup b.todoAssignments todo.id = none ∧
            ∃ c0, b.columns.head? = some c0 ∧ c0.id = colM.id)))) := by
  have hover : columnMembership today b col todo = true := by
    unfold columnMembership
    rw [htype, hdue]
    show isOverdue today y = true
    unfold isOverdue getDaysFromToday
    rw [hy]
    show decide (today - 1 - today < 0) = true
    rw [decide_eq_true_iff]
    omega
  refine ⟨?_, hover, ?_⟩
  · unfold getTodosForColumn
    rw [hcol]
    rw [mem_isortLE]
    refine List.mem_filter.mpr ⟨hmem, ?_⟩
    have harchb : b.archivedTodoIds.contains todo.id = false := by
      cases hb : b.archivedTodoIds.contains todo.id with
      | false => rfl
      | true => exact absurd ((containsIffMem _ _).mp hb) harch
    rw [harchb, hover, hfil]
    rfl
  · intro colM htM
    unfold columnMembership
    rw [htM]
    cases hla : recLookup b.todoAssignments todo.id with
    | some cAssigned =>
      constructor
      · intro hmm
        exact Or.inl (by
          rw [show cAssigned = colM.id from eq_of_beq hmm])
      · rintro (hs | ⟨hn, -⟩)
        · injection hs with hs
          rw [hs]
          exact beq_self_eq_true colM.id
        · cases hn
    | none =>
      cases hcols : b.columns with
      | nil =>
        constructor
        · intro hmm
          cases hmm
        · rintro (hs | ⟨-, c0, hc0, -⟩)
          · cases hs
          · simp at hc0
      | cons c0 rest =>
        constructor
        · intro hmm
          exact Or.inr ⟨rfl, c0, rfl, eq_of_beq hmm⟩
        · rintro (hs | ⟨-, c1, hc1, hid⟩)
          · cases hs
          · have hc1e : c0 = c1 := by simpa using hc1
            subst hc1e
            show (c0.id == colM.id) = true
            rw [hid]
            exact beq_self_eq_true colM.id

/-- C1 witness: a concrete board with an overdue column; the task due
yesterday is manually assigned elsewhere yet still listed. -/
def overdueCol : TypedColumn :=
  { id := str ("c-over"), name := str ("Overdue"), type := ColumnType.overdue }

def dueTodo : TodoItem :=
  { id := str ("f:1"), text := str ("pay rent 📅2024-03-14"), filePath := str ("f"),
    lineNumber := 1, completed := false, priority := MAX_SAFE_INTEGER,
    rawLine := str ("- [ ] pay rent 📅2024-03-14"), pinned := false, indentLevel := 0,
    parentId := none, dueDate := some (str ("2024-03-14")), tags := [] }

def overdueBoard : TypedBoard :=
  { id := str ("b1")
    name := str ("Board")
    columns := [overdueCol]
    pinnedIds := []
    todoAssignments := [(str ("f:1"), str ("somewhere-else"))]
    todoPriorities := []
    archivedTodoIds := [] }

theorem C1_overdue_ignores_assignment_witness :
    dueTodo ∈ getTodosForColumn 19797 [dueTodo] overdueBoard (str ("c-over")) :=
  (C1_overdue_ignores_assignment 19797 (str ("2024-03-14")) overdueBoard overdueCol
    dueTodo [dueTodo] (by decide) rfl rfl rfl (by decide) (by decide) (by decide)).1

end TaskWeaver
